import Mathlib

/-!
# string_tree: a shallow embedding of `src/src/string_tree.c`

The store (`string_tree_t`) keeps a boundary array `token_indices` over a packed
string table `strings`; the iterator (`string_tree_iterator_t`) walks every
combination of one alternative per token with an odometer.

Conventions of the embedding

* `size_t` values are natural numbers; every `uint32_t` cast or `uint32_t`
  arithmetic step of the source is written with an explicit `% 2 ^ 32`.
* A C array is a `List Nat`; an array read that the source performs is written
  `a[i]?`, so a read outside the array makes the whole call `none`
  (undefined behaviour in C).  A `char *` result is an `Option String`, `none`
  being `NULL`.
* `malloc`/`calloc` are taken to succeed.
-/

namespace StringTree

/-- Modelled from the spec: the packed string table (`cstring_array`), whose
implementation is not part of the sources.  `entries` are the finalized,
addressable strings in insertion order; `building` holds the bytes appended to
the string currently being built. -/
structure cstring_array where
  entries : List String
  building : String
deriving DecidableEq

/-- Modelled from the spec: `cstring_array_new`, an empty table. -/
def cstring_array_new : cstring_array :=
  { entries := [], building := "" }

/-- Modelled from the spec: `cstring_array_add_string`, the "finalize
immediately" mode: the string becomes a new addressable entry. -/
def cstring_array_add_string (self : cstring_array) (str : String) : cstring_array :=
  { self with entries := self.entries ++ [str] }

/-- Modelled from the spec: `cstring_array_add_string_len`, as
`cstring_array_add_string` on the first `len` bytes of `str`. -/
def cstring_array_add_string_len (self : cstring_array) (str : String) (len : Nat) :
    cstring_array :=
  { self with entries := self.entries ++ [String.mk (str.data.take len)] }

/-- Modelled from the spec: `cstring_array_append_string`, the "append to the
string currently being built" mode: no new entry is started. -/
def cstring_array_append_string (self : cstring_array) (str : String) : cstring_array :=
  { self with building := self.building ++ str }

/-- Modelled from the spec: `cstring_array_append_string_len`, as
`cstring_array_append_string` on the first `len` bytes of `str`. -/
def cstring_array_append_string_len (self : cstring_array) (str : String) (len : Nat) :
    cstring_array :=
  { self with building := self.building ++ String.mk (str.data.take len) }

/-- Modelled from the spec: `cstring_array_num_strings`, the count of finalized
entries (a `size_t`). -/
def cstring_array_num_strings (self : cstring_array) : Nat :=
  self.entries.length

/-- Modelled from the spec: `cstring_array_get_string`, random access by entry
index; an index that names no finalized entry gives `NULL`. -/
def cstring_array_get_string (self : cstring_array) (i : Nat) : Option String :=
  self.entries[i]?

/-- Modelled from the spec: `cstring_array_clear`, empties the table. -/
def cstring_array_clear (_self : cstring_array) : cstring_array :=
  { entries := [], building := "" }

/-- The store: `token_indices` is the `uint32_array` of boundaries (its `n` is
the length of the list, its `a` the list itself), `strings` the string table. -/
structure string_tree_t where
  token_indices : List Nat
  strings : cstring_array
deriving DecidableEq

/-- Embedding of `string_tree_new_size`: the boundary array receives its first entry `0`;
the capacity hint only sizes the allocation. -/
def string_tree_new_size (_size : Nat) : string_tree_t :=
  { token_indices := [0], strings := cstring_array_new }

def DEFAULT_STRING_TREE_SIZE : Nat := 8

/-- Embedding of `string_tree_new`. -/
def string_tree_new : string_tree_t :=
  string_tree_new_size DEFAULT_STRING_TREE_SIZE

/-- Embedding of `string_tree_get_alternative`: `token_index` is a `size_t`, compared with
the length `n` of the boundary array; `token_start + alternative` is a
`uint32_t` sum. -/
def string_tree_get_alternative (self : string_tree_t) (token_index alternative : Nat) :
    Option String :=
  if h : token_index ≥ self.token_indices.length then none
  else
    let token_start := self.token_indices[token_index]
    cstring_array_get_string self.strings ((token_start + alternative) % 2 ^ 32)

/-- Embedding of `string_tree_finalize_token`: pushes `(uint32_t) num_strings`. -/
def string_tree_finalize_token (self : string_tree_t) : string_tree_t :=
  { self with
    token_indices := self.token_indices ++ [cstring_array_num_strings self.strings % 2 ^ 32] }

/-- Embedding of `string_tree_clear`. -/
def string_tree_clear (self : string_tree_t) : string_tree_t :=
  { token_indices := [0], strings := cstring_array_clear self.strings }

/-- Embedding of `string_tree_add_string` (terminated). -/
def string_tree_add_string (self : string_tree_t) (str : String) : string_tree_t :=
  { self with strings := cstring_array_add_string self.strings str }

/-- Embedding of `string_tree_add_string_len` (terminated). -/
def string_tree_add_string_len (self : string_tree_t) (str : String) (len : Nat) :
    string_tree_t :=
  { self with strings := cstring_array_add_string_len self.strings str len }

/-- Embedding of `string_tree_append_string` (unterminated). -/
def string_tree_append_string (self : string_tree_t) (str : String) : string_tree_t :=
  { self with strings := cstring_array_append_string self.strings str }

/-- Embedding of `string_tree_append_string_len` (unterminated). -/
def string_tree_append_string_len (self : string_tree_t) (str : String) (len : Nat) :
    string_tree_t :=
  { self with strings := cstring_array_append_string_len self.strings str len }

/-- Embedding of `string_tree_num_tokens`: `(uint32_t) n - 1`, a `uint32_t` subtraction. -/
def string_tree_num_tokens (self : string_tree_t) : Nat :=
  (self.token_indices.length % 2 ^ 32 + 2 ^ 32 - 1) % 2 ^ 32

/-- Embedding of `string_tree_num_strings`: `(uint32_t) num_strings`. -/
def string_tree_num_strings (self : string_tree_t) : Nat :=
  cstring_array_num_strings self.strings % 2 ^ 32

/-- Embedding of `string_tree_num_alternatives`: the guard compares `i` with the length `n`
of the boundary array; the reads `a[i + 1]` (index computed in `uint32_t`) and
`a[i]` are as the source performs them, and the difference is a `uint32_t`
subtraction.  `none` is a read outside the boundary array. -/
def string_tree_num_alternatives (self : string_tree_t) (i : Nat) : Option Nat :=
  if i ≥ self.token_indices.length then some 0
  else do
    let hi ← self.token_indices[(i + 1) % 2 ^ 32]?
    let lo ← self.token_indices[i]?
    let n := (hi + 2 ^ 32 - lo) % 2 ^ 32
    some (if n > 0 then n else 1)

/-- The iterator: `tree` is the borrowed store, `path` the selector array. -/
structure string_tree_iterator_t where
  tree : string_tree_t
  path : List Nat
  num_tokens : Nat
  remaining : Nat
deriving DecidableEq

/-- The counting loop of `string_tree_iterator_new`,
`for (int i = 0; i < num_tokens; i++)`, entered at index `i` with `fuel`
iterations left; the product is a `uint32_t` product. -/
def permutations_loop (tree : string_tree_t) : Nat → Nat → Nat → Option Nat
  | 0, _, permutations => some permutations
  | fuel + 1, i, permutations => do
    let num_strings ← string_tree_num_alternatives tree i
    if num_strings > 0 then
      permutations_loop tree fuel (i + 1) (permutations * num_strings % 2 ^ 32)
    else
      permutations_loop tree fuel (i + 1) permutations

/-- Embedding of `string_tree_iterator_new`.  The loop index is an `int`: with `2 ^ 31` or
more tokens its increment overflows, which is undefined behaviour (`none`). -/
def string_tree_iterator_new (tree : string_tree_t) : Option string_tree_iterator_t :=
  let num_tokens := string_tree_num_tokens tree
  if num_tokens ≥ 2 ^ 31 then none
  else do
    let permutations ← permutations_loop tree num_tokens 0 1
    some
      { tree := tree
        path := List.replicate num_tokens 0
        num_tokens := num_tokens
        remaining := if permutations > 1 then permutations else 1 }

/-- Conversion of a `uint32_t` value to `int` (two's complement). -/
def to_int32 (x : Nat) : Int :=
  if x % 2 ^ 32 < 2 ^ 31 then (x % 2 ^ 32 : Nat) else (x % 2 ^ 32 : Nat) - 2 ^ 32

/-- The odometer loop of `string_tree_iterator_next`,
`for (...; i >= 0; i--)`: the first argument is `i + 1`, so `0` is the exit
with `i < 0`.  The result is the path, the remaining count and whether the
loop ended with `i < 0` (`true`) or by `break` (`false`). -/
def next_loop (tree : string_tree_t) : Nat → List Nat → Nat → Option (List Nat × Nat × Bool)
  | 0, path, remaining => some (path, remaining, true)
  | i + 1, path, remaining => do
    let p ← path[i]?
    let p1 := (p + 1) % 2 ^ 32
    let path1 := path.set i p1
    let na ← string_tree_num_alternatives tree i
    if p1 = na then
      next_loop tree i (path1.set i 0) remaining
    else
      some (path1, (remaining + 2 ^ 32 - 1) % 2 ^ 32, false)

/-- Embedding of `string_tree_iterator_next`.  The loop starts at
`(int) (num_tokens - 1)`, the subtraction being done in `uint32_t`. -/
def string_tree_iterator_next (self : string_tree_iterator_t) :
    Option string_tree_iterator_t :=
  if self.remaining > 0 then
    let i0 := to_int32 ((self.num_tokens + 2 ^ 32 - 1) % 2 ^ 32)
    if i0 < 0 then
      some { self with remaining := 0 }
    else do
      let r ← next_loop self.tree (i0.toNat + 1) self.path self.remaining
      some { self with path := r.1, remaining := if r.2.2 then 0 else r.2.1 }
  else
    some self

/-- Embedding of `string_tree_iterator_get_string`: `base_index + offset` is a `uint32_t`
sum.  The outer `none` is a read outside `token_indices` or `path`; the inner
`none` is `NULL`. -/
def string_tree_iterator_get_string (self : string_tree_iterator_t) (i : Nat) :
    Option (Option String) :=
  if i ≥ self.num_tokens then some none
  else do
    let base_index ← self.tree.token_indices[i]?
    let offset ← self.path[i]?
    some (cstring_array_get_string self.tree.strings ((base_index + offset) % 2 ^ 32))

/-- Embedding of `string_tree_iterator_done`. -/
def string_tree_iterator_done (self : string_tree_iterator_t) : Bool :=
  self.remaining == 0

/-- Embedding of `k` successive calls of `string_tree_iterator_next`. -/
def advance_n : Nat → string_tree_iterator_t → Option string_tree_iterator_t
  | 0, it => some it
  | k + 1, it => (string_tree_iterator_next it).bind (advance_n k)

/-- The building calls of the API. -/
inductive Op where
  | add (str : String)
  | add_len (str : String) (len : Nat)
  | append (str : String)
  | append_len (str : String) (len : Nat)
  | finalize
  | clear
deriving DecidableEq

/-- One building call applied to a store. -/
def Op.apply (s : string_tree_t) : Op → string_tree_t
  | .add str => string_tree_add_string s str
  | .add_len str len => string_tree_add_string_len s str len
  | .append str => string_tree_append_string s str
  | .append_len str len => string_tree_append_string_len s str len
  | .finalize => string_tree_finalize_token s
  | .clear => string_tree_clear s

/-- A sequence of building calls, applied left to right. -/
def run (s : string_tree_t) (ops : List Op) : string_tree_t :=
  ops.foldl Op.apply s

/-- The calls that build one token per list of `L`: each string of the list is
added, then the token is finalized. -/
def build_ops (L : List (List String)) : List Op :=
  L.flatMap fun alts => alts.map Op.add ++ [Op.finalize]

/-- The store built from a fresh one by `build_ops L`. -/
def build (L : List (List String)) : string_tree_t :=
  run string_tree_new (build_ops L)

/-- The boundary invariant of a store: the boundary array starts with `0`, is
non-decreasing, holds no value above `num_strings()`, and has one entry more
than `num_tokens()`. -/
def boundary_invariant (s : string_tree_t) : Prop :=
  s.token_indices.head? = some 0 ∧
  s.token_indices.Pairwise (· ≤ ·) ∧
  (∀ b ∈ s.token_indices, b ≤ string_tree_num_strings s) ∧
  s.token_indices.length = string_tree_num_tokens s + 1

instance (s : string_tree_t) : Decidable (boundary_invariant s) := by
  unfold boundary_invariant
  infer_instance

/-- What the building calls have added since creation or the last clear: the
alternatives of each finalized token, and those of the token being built. -/
structure Added where
  finalized : List (List String)
  current : List String
deriving DecidableEq

/-- The effect of one building call on the record of added alternatives. -/
def Added.step (h : Added) : Op → Added
  | .add str => { h with current := h.current ++ [str] }
  | .add_len str len => { h with current := h.current ++ [String.mk (str.data.take len)] }
  | .append _ => h
  | .append_len _ _ => h
  | .finalize => { finalized := h.finalized ++ [h.current], current := [] }
  | .clear => { finalized := [], current := [] }

/-- The record of added alternatives after a sequence of building calls on a
fresh store. -/
def added (ops : List Op) : Added :=
  ops.foldl Added.step { finalized := [], current := [] }

/-- The number of finalize calls since creation or the last clear. -/
def finalize_calls (ops : List Op) : Nat :=
  ops.foldl (fun n op => match op with
    | .clear => 0
    | .finalize => n + 1
    | _ => n) 0

/-- The boundaries that tokens with the given alternatives occupy in the
string table: entry `t` is the number of strings of the first `t` tokens. -/
def boundaries_of (fin : List (List String)) : List Nat :=
  (List.range (fin.length + 1)).map fun t => (fin.take t).flatten.length

/-- The number of alternatives added for each finalized token: the boundary
differences `boundaries[i + 1] - boundaries[i]`. -/
def alternative_counts (s : string_tree_t) : List Nat :=
  (List.range (string_tree_num_tokens s)).map fun i =>
    s.token_indices.getD (i + 1) 0 - s.token_indices.getD i 0

/-- The radix of each token: `max(1, alternatives(i))`. -/
def radices (s : string_tree_t) : List Nat :=
  (alternative_counts s).map (max 1)

/-- The permutation product `P`, as a natural number (not truncated). -/
def permutation_product (s : string_tree_t) : Nat :=
  (radices s).prod

/-- The mixed-radix representation of `k`, one digit per radix, the last radix
being the least significant: the digit at a position is `k` divided by the
product of the radices after it, modulo its own radix. -/
def mixed_radix : List Nat → Nat → List Nat
  | [], _ => []
  | r :: rs, k => (k / rs.prod) % r :: mixed_radix rs k

/-- Mixed-radix digits with the least significant radix first. -/
def digits_lsf : List Nat → Nat → List Nat
  | [], _ => []
  | r :: rs, k => k % r :: digits_lsf rs (k / r)

/-- The number written by digits, least significant first. -/
def value_lsf : List Nat → List Nat → Nat
  | r :: rs, d :: ds => d + r * value_lsf rs ds
  | _, _ => 0

/-- One odometer step on digits, least significant first; the flag tells that
the carry left the last digit. -/
def incr_lsf : List Nat → List Nat → List Nat × Bool
  | r :: rs, d :: ds =>
    if d + 1 = r then (0 :: (incr_lsf rs ds).1, (incr_lsf rs ds).2) else ((d + 1) :: ds, false)
  | _, _ => ([], true)

/-- Membership of a path in the Cartesian product of the ranges
`[0, num_alternatives(i))`, one selector per token. -/
def in_product (s : string_tree_t) (p : List Nat) : Prop :=
  p.length = string_tree_num_tokens s ∧
    ∀ i d, p[i]? = some d → ∃ n, string_tree_num_alternatives s i = some n ∧ d < n

/-- The iterator state that shows combination number `k`: the selectors are
the mixed-radix digits of `k` and `remaining` is `P - k`. -/
def odometer_state (s : string_tree_t) (k : Nat) : string_tree_iterator_t :=
  { tree := s
    path := (digits_lsf (radices s).reverse k).reverse
    num_tokens := string_tree_num_tokens s
    remaining := permutation_product s - k }

/-- Well-formedness of an iterator over the store `s`: it borrows `s`, its
`num_tokens` is the token count of `s`, its path has one selector per token,
each below the radix of its token, and `remaining` is a `uint32_t`. -/
def iterator_wf (s : string_tree_t) (it : string_tree_iterator_t) : Prop :=
  it.tree = s ∧ it.num_tokens = string_tree_num_tokens s ∧
    List.Forall₂ (· < ·) it.path (radices s) ∧ it.remaining < 2 ^ 32

/-- A store with 32 finalized tokens of two alternatives each: the true
permutation product is `2 ^ 32`. -/
def overflow_store : string_tree_t :=
  build (List.replicate 32 ["a", "b"])

/-- The loop of the macro `string_tree_iterator_foreach_token`,
`for (int __pi = 0; __pi < iter->num_tokens; __pi++)`, entered at index `pi`
with `fuel` iterations left.  The result lists, in the order of the
iterations, the token index and the value that the macro assigns to `s` before
running its body. -/
def foreach_token_loop (iter : string_tree_iterator_t) :
    Nat → Nat → Option (List (Nat × Option String))
  | 0, _ => some []
  | fuel + 1, pi => do
    let p ← iter.path[pi]?
    let s := string_tree_get_alternative iter.tree pi p
    let rest ← foreach_token_loop iter fuel (pi + 1)
    some ((pi, s) :: rest)

/-- Embedding of the macro `string_tree_iterator_foreach_token`.  The loop
index is an `int`: with `2 ^ 31` or more tokens its increment overflows
(`none`). -/
def string_tree_iterator_foreach_token (iter : string_tree_iterator_t) :
    Option (List (Nat × Option String)) :=
  if iter.num_tokens ≥ 2 ^ 31 then none
  else foreach_token_loop iter iter.num_tokens 0

/-- The strings added after the finalized token `t`, in the order of the
calls: those of the later finalized tokens, then those of the token being
built. -/
def added_after (a : Added) (t : Nat) : List String :=
  (a.finalized.drop (t + 1)).flatten ++ a.current

/-! ## The store -/

theorem run_append (s : string_tree_t) (ops : List Op) (op : Op) :
    run s (ops ++ [op]) = Op.apply (run s ops) op := by
  simp [run, List.foldl_append]

theorem added_append (ops : List Op) (op : Op) :
    added (ops ++ [op]) = Added.step (added ops) op := by
  simp [added, List.foldl_append]

theorem boundaries_of_concat (fin : List (List String)) (cur : List String) :
    boundaries_of (fin ++ [cur]) = boundaries_of fin ++ [(fin.flatten ++ cur).length] := by
  unfold boundaries_of
  rw [List.length_append, List.length_singleton, List.range_succ, List.map_append]
  congr 1
  · apply List.map_congr_left
    intro t ht
    rw [List.mem_range] at ht
    rw [List.take_append_of_le_length (by omega)]
  · simp [List.flatten_append]

theorem boundaries_of_length (fin : List (List String)) :
    (boundaries_of fin).length = fin.length + 1 := by
  simp [boundaries_of]

theorem boundaries_of_getElem? (fin : List (List String)) (t : Nat) (ht : t ≤ fin.length) :
    (boundaries_of fin)[t]? = some (fin.take t).flatten.length := by
  unfold boundaries_of
  rw [List.getElem?_map, List.getElem?_range (by omega)]
  rfl

theorem flatten_take_length_mono (fin : List (List String)) {t u : Nat} (h : t ≤ u) :
    (fin.take t).flatten.length ≤ (fin.take u).flatten.length := by
  have e : fin.take t = (fin.take u).take t := by
    rw [List.take_take, Nat.min_eq_left h]
  have e2 := List.take_append_drop t (fin.take u)
  rw [e]
  conv_rhs => rw [← e2]
  rw [List.flatten_append, List.length_append]
  omega

theorem flatten_take_length_le (fin : List (List String)) (t : Nat) :
    (fin.take t).flatten.length ≤ fin.flatten.length := by
  have e2 := List.take_append_drop t fin
  conv_rhs => rw [← e2]
  rw [List.flatten_append, List.length_append]
  omega

/-- The store reached by building calls is described by the record of added
alternatives, as long as the string count fits in 32 bits. -/
theorem run_repr (size : Nat) (ops : List Op)
    (hs : (run (string_tree_new_size size) ops).strings.entries.length < 2 ^ 32) :
    (run (string_tree_new_size size) ops).strings.entries
        = (added ops).finalized.flatten ++ (added ops).current ∧
      (run (string_tree_new_size size) ops).token_indices
        = boundaries_of (added ops).finalized := by
  induction ops using List.reverseRecOn with
  | nil => simp [run, added, string_tree_new_size, cstring_array_new, boundaries_of]
  | append_singleton ops op ih =>
    rw [run_append] at hs ⊢
    rw [added_append]
    cases op with
    | add str =>
      simp only [Op.apply, string_tree_add_string, cstring_array_add_string,
        List.length_append, List.length_singleton] at hs ⊢
      obtain ⟨h1, h2⟩ := ih (by omega)
      simp [Added.step, h1, h2]
    | add_len str len =>
      simp only [Op.apply, string_tree_add_string_len, cstring_array_add_string_len,
        List.length_append, List.length_singleton] at hs ⊢
      obtain ⟨h1, h2⟩ := ih (by omega)
      simp [Added.step, h1, h2]
    | append str =>
      simp only [Op.apply, string_tree_append_string, cstring_array_append_string] at hs ⊢
      exact ih hs
    | append_len str len =>
      simp only [Op.apply, string_tree_append_string_len,
        cstring_array_append_string_len] at hs ⊢
      exact ih hs
    | finalize =>
      simp only [Op.apply, string_tree_finalize_token, cstring_array_num_strings] at hs ⊢
      obtain ⟨h1, h2⟩ := ih hs
      simp only [Added.step, boundaries_of_concat, h2, List.flatten_concat, List.append_nil]
      rw [Nat.mod_eq_of_lt hs, h1]
      exact ⟨rfl, rfl⟩
    | clear =>
      simp [Op.apply, string_tree_clear, cstring_array_clear, Added.step, boundaries_of]

theorem finalize_calls_eq (ops : List Op) :
    finalize_calls ops = (added ops).finalized.length := by
  induction ops using List.reverseRecOn with
  | nil => rfl
  | append_singleton ops op ih =>
    rw [added_append]
    unfold finalize_calls at ih ⊢
    rw [List.foldl_append, List.foldl_cons, List.foldl_nil, ih]
    cases op <;> simp [Added.step]

theorem boundary_invariant_of_repr (s : string_tree_t) (fin : List (List String))
    (cur : List String) (h1 : s.strings.entries = fin.flatten ++ cur)
    (h2 : s.token_indices = boundaries_of fin)
    (hs : s.strings.entries.length < 2 ^ 32) (ht : s.token_indices.length ≤ 2 ^ 32) :
    boundary_invariant s := by
  refine ⟨?_, ?_, ?_, ?_⟩
  · rw [h2]
    simp [boundaries_of, List.range_succ_eq_map]
  · rw [h2]
    unfold boundaries_of
    rw [List.pairwise_map]
    exact List.Pairwise.imp (fun h => flatten_take_length_mono fin (Nat.le_of_lt h))
      (List.pairwise_lt_range _)
  · intro b hb
    rw [h2] at hb
    unfold boundaries_of at hb
    rw [List.mem_map] at hb
    obtain ⟨t, -, rfl⟩ := hb
    unfold string_tree_num_strings cstring_array_num_strings
    rw [Nat.mod_eq_of_lt hs, h1, List.length_append]
    have := flatten_take_length_le fin t
    omega
  · unfold string_tree_num_tokens
    have : 0 < s.token_indices.length := by rw [h2, boundaries_of_length]; omega
    omega

/-- Every store reached from a fresh one by building calls satisfies the
boundary invariant, as long as its string and boundary counts fit in 32 bits. -/
theorem run_invariant (size : Nat) (ops : List Op)
    (hs : (run (string_tree_new_size size) ops).strings.entries.length < 2 ^ 32)
    (ht : (run (string_tree_new_size size) ops).token_indices.length ≤ 2 ^ 32) :
    boundary_invariant (run (string_tree_new_size size) ops) := by
  obtain ⟨h1, h2⟩ := run_repr size ops hs
  exact boundary_invariant_of_repr _ _ _ h1 h2 hs ht

theorem invariant_length (s : string_tree_t) (h : boundary_invariant s) :
    s.token_indices.length = string_tree_num_tokens s + 1 ∧
      s.token_indices.length ≤ 2 ^ 32 := by
  obtain ⟨-, -, -, h4⟩ := h
  refine ⟨h4, ?_⟩
  unfold string_tree_num_tokens at h4
  omega

theorem invariant_lt (s : string_tree_t) (h : boundary_invariant s) (i b : Nat)
    (hb : s.token_indices[i]? = some b) : b < 2 ^ 32 := by
  obtain ⟨-, -, h3, -⟩ := h
  have hm : b ∈ s.token_indices := List.getElem?_mem hb
  have := h3 b hm
  unfold string_tree_num_strings at this
  have := Nat.mod_lt (cstring_array_num_strings s.strings) (show 2 ^ 32 > 0 by norm_num)
  omega

theorem invariant_mono (s : string_tree_t) (h : boundary_invariant s) (i j lo hi : Nat)
    (hij : i ≤ j) (hlo : s.token_indices[i]? = some lo) (hhi : s.token_indices[j]? = some hi) :
    lo ≤ hi := by
  obtain ⟨-, h2, -, -⟩ := h
  rcases Nat.eq_or_lt_of_le hij with rfl | hlt
  · rw [hlo] at hhi
    injection hhi with e
    omega
  · obtain ⟨hi1, rfl⟩ := List.getElem?_eq_some.mp hlo
    obtain ⟨hj1, rfl⟩ := List.getElem?_eq_some.mp hhi
    exact List.pairwise_iff_getElem.mp h2 i j hi1 hj1 hlt

/-- Under the boundary invariant both reads of `string_tree_num_alternatives`
at a finalized token are inside the boundary array and the result is the
boundary difference, `0` being replaced by `1`. -/
theorem num_alternatives_of_invariant (s : string_tree_t) (h : boundary_invariant s)
    (i : Nat) (hi : i < string_tree_num_tokens s) :
    ∃ lo up, s.token_indices[i]? = some lo ∧ s.token_indices[i + 1]? = some up ∧
      lo ≤ up ∧ up < 2 ^ 32 ∧ string_tree_num_alternatives s i = some (max 1 (up - lo)) := by
  obtain ⟨hl, hl2⟩ := invariant_length s h
  have h1 : i < s.token_indices.length := by omega
  have h2 : i + 1 < s.token_indices.length := by omega
  have e1 := List.getElem?_eq_getElem h1
  have e2 := List.getElem?_eq_getElem h2
  have hle := invariant_mono s h i (i + 1) _ _ (by omega) e1 e2
  have hlt := invariant_lt s h (i + 1) _ e2
  refine ⟨_, _, e1, e2, hle, hlt, ?_⟩
  unfold string_tree_num_alternatives
  rw [if_neg (by omega), Nat.mod_eq_of_lt (by omega), e1, e2]
  simp only [Option.bind_eq_bind, Option.some_bind]
  congr 1
  generalize s.token_indices[i] = lo at hle hlt
  generalize s.token_indices[i + 1] = up at hle hlt
  have e : (up + 2 ^ 32 - lo) % 2 ^ 32 = up - lo := by omega
  rw [e]
  split <;> omega

theorem get_alternative_eq (s : string_tree_t) (t j : Nat) (ht : t < s.token_indices.length) :
    string_tree_get_alternative s t j
      = s.strings.entries[(s.token_indices[t] + j) % 2 ^ 32]? := by
  unfold string_tree_get_alternative cstring_array_get_string
  rw [dif_neg (by omega)]

theorem flatten_getElem? (L : List (List String)) (t j : Nat) (ht : t < L.length)
    (hj : j < L[t].length) :
    L.flatten[(L.take t).flatten.length + j]? = some (L[t][j]) := by
  have e : L.flatten = (L.take t).flatten ++ (L[t] ++ (L.drop (t + 1)).flatten) := by
    rw [← List.flatten_cons, ← List.drop_eq_getElem_cons ht, ← List.flatten_append,
      List.take_append_drop]
  rw [e, List.getElem?_append_right (by omega), Nat.add_sub_cancel_left,
    List.getElem?_append_left hj, List.getElem?_eq_getElem hj]

theorem added_foldl_adds (alts : List String) (fin : List (List String)) (cur : List String) :
    (alts.map Op.add).foldl Added.step { finalized := fin, current := cur }
      = { finalized := fin, current := cur ++ alts } := by
  induction alts generalizing cur with
  | nil => simp
  | cons a alts ih => simp [Added.step, ih]

theorem added_foldl_build_ops (L : List (List String)) (fin : List (List String)) :
    (build_ops L).foldl Added.step { finalized := fin, current := [] }
      = { finalized := fin ++ L, current := [] } := by
  induction L generalizing fin with
  | nil => simp [build_ops]
  | cons alts L ih =>
    have e : build_ops (alts :: L) = alts.map Op.add ++ [Op.finalize] ++ build_ops L := by
      simp [build_ops]
    rw [e, List.foldl_append, List.foldl_append, added_foldl_adds]
    simp only [List.foldl_cons, List.foldl_nil, Added.step, List.nil_append]
    rw [ih]
    simp

theorem added_build_ops (L : List (List String)) :
    added (build_ops L) = { finalized := L, current := [] } := by
  unfold added
  rw [added_foldl_build_ops]
  simp

/-- The store built from `L` holds the strings of `L` in order and the
boundaries of `L`, as long as the string count fits in 32 bits. -/
theorem build_repr (L : List (List String)) (hL : L.flatten.length < 2 ^ 32) :
    (build L).strings.entries = L.flatten ∧ (build L).token_indices = boundaries_of L := by
  have key : ∀ (M : List (List String)), M.flatten.length < 2 ^ 32 →
      (build M).strings.entries.length < 2 ^ 32 := by
    intro M
    induction M using List.reverseRecOn with
    | nil => intro _; simp [build, build_ops, run, string_tree_new, string_tree_new_size,
        cstring_array_new]
    | append_singleton M alts ih =>
      intro hM
      rw [List.flatten_append, List.length_append] at hM
      have h0 := ih (by omega)
      obtain ⟨h1, -⟩ := run_repr DEFAULT_STRING_TREE_SIZE (build_ops M) h0
      rw [added_build_ops] at h1
      simp only [List.append_nil] at h1
      have e : build_ops (M ++ [alts]) = build_ops M ++ (alts.map Op.add ++ [Op.finalize]) := by
        simp [build_ops]
      have h2 : ∀ (s : string_tree_t) (as : List String),
          (run s (as.map Op.add ++ [Op.finalize])).strings.entries = s.strings.entries ++ as := by
        intro s as
        induction as generalizing s with
        | nil => simp [run, Op.apply, string_tree_finalize_token]
        | cons a as ih2 =>
          have := ih2 (Op.apply s (Op.add a))
          simp only [run, List.map_cons, List.cons_append, List.foldl_cons] at this ⊢
          rw [this]
          simp [Op.apply, string_tree_add_string, cstring_array_add_string]
      show (run (string_tree_new_size DEFAULT_STRING_TREE_SIZE)
        (build_ops (M ++ [alts]))).strings.entries.length < 2 ^ 32
      rw [e]
      unfold run at h1 h2 ⊢
      rw [List.foldl_append, h2, h1, List.length_append]
      simpa using hM
  have h := run_repr DEFAULT_STRING_TREE_SIZE (build_ops L) (key L hL)
  rw [added_build_ops] at h
  simpa [build, string_tree_new] using h

/-! ## Claims about the store -/

/-- C4: build round trip.  From a fresh store, adding the strings of each list
of `L` and finalizing once per list gives a store whose
`get_alternative(t, j)` is `L[t][j]`, for every token `t` of `L` and every
`j` below the length of `L[t]`; the total number of strings is taken to fit in
32 bits. -/
theorem build_round_trip (L : List (List String)) (hL : L.flatten.length < 2 ^ 32)
    (t j : Nat) (ht : t < L.length) (hj : j < L[t].length) :
    string_tree_get_alternative (build L) t j = some (L[t][j]) := by
  obtain ⟨h1, h2⟩ := build_repr L hL
  have hb := boundaries_of_getElem? L t (by omega)
  have hlen : t < (build L).token_indices.length := by
    rw [h2, boundaries_of_length]; omega
  rw [get_alternative_eq _ _ _ hlen, h1]
  have e : (build L).token_indices[t] = (L.take t).flatten.length := by
    have h3 := List.getElem?_eq_getElem hlen
    have h4 : (build L).token_indices[t]? = some (L.take t).flatten.length := by
      rw [h2]; exact hb
    rw [h3] at h4
    injection h4
  rw [e]
  have hf := flatten_getElem? L t j ht hj
  have hlt : (L.take t).flatten.length + j < L.flatten.length := by
    by_contra hc
    rw [List.getElem?_eq_none (by omega)] at hf
    exact Option.noConfusion hf
  rw [Nat.mod_eq_of_lt (by omega), hf]

theorem build_round_trip_witness :
    (([["a", "b", "c"], ["x"]] : List (List String)).flatten.length < 2 ^ 32) ∧
      string_tree_get_alternative (build [["a", "b", "c"], ["x"]]) 0 2 = some "c" ∧
      string_tree_get_alternative (build [["a", "b", "c"], ["x"]]) 1 0 = some "x" :=
  ⟨by decide,
   build_round_trip [["a", "b", "c"], ["x"]] (by decide) 0 2 (by decide) (by decide),
   build_round_trip [["a", "b", "c"], ["x"]] (by decide) 1 0 (by decide) (by decide)⟩

/-- C5: for a store satisfying the boundary invariant and a finalized token
`i < num_tokens()`, `num_alternatives(i)` reads `boundaries[i]` and
`boundaries[i + 1]` inside the boundary array and returns
`max(1, boundaries[i + 1] - boundaries[i])`: `1` for a token finalized with
nothing added, `n` for a token with `n ≥ 1` added alternatives. -/
theorem num_alternatives_finalized (s : string_tree_t) (h : boundary_invariant s)
    (i : Nat) (hi : i < string_tree_num_tokens s) :
    ∃ lo up, s.token_indices[i]? = some lo ∧ s.token_indices[i + 1]? = some up ∧ lo ≤ up ∧
      string_tree_num_alternatives s i = some (max 1 (up - lo)) ∧
      (up = lo → string_tree_num_alternatives s i = some 1) ∧
      (∀ n, 1 ≤ n → up = lo + n → string_tree_num_alternatives s i = some n) := by
  obtain ⟨lo, up, h1, h2, h3, -, h5⟩ := num_alternatives_of_invariant s h i hi
  refine ⟨lo, up, h1, h2, h3, h5, ?_, ?_⟩
  · intro e
    rw [h5, e]
    simp
  · intro n hn e
    rw [h5, e]
    congr 1
    omega

theorem num_alternatives_finalized_witness :
    boundary_invariant (build [["a", "b", "c"], [], ["x"]]) ∧
      (1 < string_tree_num_tokens (build [["a", "b", "c"], [], ["x"]])) ∧
      ∃ lo up, (build [["a", "b", "c"], [], ["x"]]).token_indices[1]? = some lo ∧
        (build [["a", "b", "c"], [], ["x"]]).token_indices[1 + 1]? = some up ∧ lo ≤ up ∧
        string_tree_num_alternatives (build [["a", "b", "c"], [], ["x"]]) 1
          = some (max 1 (up - lo)) ∧
        (up = lo → string_tree_num_alternatives (build [["a", "b", "c"], [], ["x"]]) 1
          = some 1) ∧
        (∀ n, 1 ≤ n → up = lo + n →
          string_tree_num_alternatives (build [["a", "b", "c"], [], ["x"]]) 1 = some n) :=
  ⟨by decide, by decide,
   num_alternatives_finalized (build [["a", "b", "c"], [], ["x"]]) (by decide) 1 (by decide)⟩

/-- C7: boundary invariant.  In every store state reached from
`string_tree_new_size` (hence also from `string_tree_new`) by any sequence of
add, append, finalize and clear calls, and whose string count and boundary
count fit in 32 bits, the boundary array starts with `0`, is non-decreasing,
holds no value above `num_strings()`, has `num_tokens() + 1` entries, and
`num_tokens()` is the number of finalize calls since creation or the last
clear. -/
theorem boundary_invariant_reachable (size : Nat) (ops : List Op)
    (hs : (run (string_tree_new_size size) ops).strings.entries.length < 2 ^ 32)
    (ht : (run (string_tree_new_size size) ops).token_indices.length ≤ 2 ^ 32) :
    boundary_invariant (run (string_tree_new_size size) ops) ∧
      string_tree_num_tokens (run (string_tree_new_size size) ops) = finalize_calls ops := by
  have hinv := run_invariant size ops hs ht
  refine ⟨hinv, ?_⟩
  obtain ⟨hl, -⟩ := invariant_length _ hinv
  obtain ⟨-, h2⟩ := run_repr size ops hs
  rw [h2, boundaries_of_length] at hl
  rw [finalize_calls_eq]
  omega

theorem boundary_invariant_reachable_witness :
    ((run (string_tree_new_size 8)
        [Op.add "a", Op.add_len "bcd" 2, Op.finalize, Op.append "x", Op.finalize, Op.clear,
          Op.finalize, Op.add "c", Op.append_len "yz" 1, Op.finalize,
          Op.add "d"]).strings.entries.length < 2 ^ 32 ∧
      (run (string_tree_new_size 8)
        [Op.add "a", Op.add_len "bcd" 2, Op.finalize, Op.append "x", Op.finalize, Op.clear,
          Op.finalize, Op.add "c", Op.append_len "yz" 1, Op.finalize,
          Op.add "d"]).token_indices.length ≤ 2 ^ 32) ∧
      boundary_invariant (run (string_tree_new_size 8)
        [Op.add "a", Op.add_len "bcd" 2, Op.finalize, Op.append "x", Op.finalize, Op.clear,
          Op.finalize, Op.add "c", Op.append_len "yz" 1, Op.finalize, Op.add "d"]) ∧
      string_tree_num_tokens (run (string_tree_new_size 8)
        [Op.add "a", Op.add_len "bcd" 2, Op.finalize, Op.append "x", Op.finalize, Op.clear,
          Op.finalize, Op.add "c", Op.append_len "yz" 1, Op.finalize, Op.add "d"])
        = finalize_calls
          [Op.add "a", Op.add_len "bcd" 2, Op.finalize, Op.append "x", Op.finalize, Op.clear,
            Op.finalize, Op.add "c", Op.append_len "yz" 1, Op.finalize, Op.add "d"] :=
  ⟨⟨by decide, by decide⟩, boundary_invariant_reachable 8 _ (by decide) (by decide)⟩

/-- C8, as stated, fails: after one `add_alternative` on a fresh store the
token being built has index `num_tokens() = 0`, and `get_alternative(0, 0)`
returns the added string. -/
theorem get_alternative_building_token_found :
    ¬ (∀ (ops : List Op) (token_index alternative : Nat),
        token_index ≥ string_tree_num_tokens (run string_tree_new ops) →
        string_tree_get_alternative (run string_tree_new ops) token_index alternative = none) := by
  intro h
  have h0 := h [Op.add "a"] 0 0 (by decide)
  revert h0
  decide

/-- C8, amended: in every reachable store state whose string and boundary
counts fit in 32 bits, `get_alternative` returns "not found" for every
`token_index > num_tokens()` and every alternative index.  For
`token_index = num_tokens()`, the token still being built, the boundary read is
the last boundary and the result is the table entry at
`(boundaries[num_tokens()] + alternative) mod 2 ^ 32`: the `alternative`-th
string added since the last finalize when there is one, and "not found" when
there is none and the sum does not wrap. -/
theorem get_alternative_out_of_range (size : Nat) (ops : List Op)
    (hs : (run (string_tree_new_size size) ops).strings.entries.length < 2 ^ 32)
    (ht : (run (string_tree_new_size size) ops).token_indices.length ≤ 2 ^ 32)
    (token_index alternative : Nat) :
    (token_index > string_tree_num_tokens (run (string_tree_new_size size) ops) →
      string_tree_get_alternative (run (string_tree_new_size size) ops) token_index alternative
        = none) ∧
    (token_index = string_tree_num_tokens (run (string_tree_new_size size) ops) →
      string_tree_get_alternative (run (string_tree_new_size size) ops) token_index alternative
        = (run (string_tree_new_size size) ops).strings.entries[
            ((added ops).finalized.flatten.length + alternative) % 2 ^ 32]? ∧
      (alternative < (added ops).current.length →
        string_tree_get_alternative (run (string_tree_new_size size) ops) token_index
          alternative = (added ops).current[alternative]?) ∧
      ((added ops).current.length ≤ alternative →
        (added ops).finalized.flatten.length + alternative < 2 ^ 32 →
        string_tree_get_alternative (run (string_tree_new_size size) ops) token_index
          alternative = none)) := by
  have hinv := run_invariant size ops hs ht
  obtain ⟨hl, -⟩ := invariant_length _ hinv
  obtain ⟨h1, h2⟩ := run_repr size ops hs
  constructor
  · intro hgt
    unfold string_tree_get_alternative
    rw [dif_pos (by omega)]
  · intro heq
    have hlen : token_index < (run (string_tree_new_size size) ops).token_indices.length := by
      omega
    have hfin : token_index = (added ops).finalized.length := by
      rw [h2, boundaries_of_length] at hl
      omega
    have e : (run (string_tree_new_size size) ops).token_indices[token_index]
        = (added ops).finalized.flatten.length := by
      have h3 := List.getElem?_eq_getElem hlen
      have h4 := boundaries_of_getElem? (added ops).finalized token_index (by omega)
      rw [← h2, h3] at h4
      injection h4 with h4
      rw [h4, hfin, List.take_length]
    rw [get_alternative_eq _ _ _ hlen, e]
    refine ⟨rfl, ?_, ?_⟩
    · intro halt
      have hlt : (added ops).finalized.flatten.length + alternative < 2 ^ 32 := by
        rw [h1, List.length_append] at hs
        omega
      rw [Nat.mod_eq_of_lt hlt, h1, List.getElem?_append_right (by omega),
        Nat.add_sub_cancel_left]
    · intro hge hlt
      rw [Nat.mod_eq_of_lt hlt]
      apply List.getElem?_eq_none
      rw [h1, List.length_append]
      omega

theorem get_alternative_out_of_range_witness :
    ((run (string_tree_new_size 8)
        [Op.add "a", Op.finalize, Op.add "b", Op.add "c"]).strings.entries.length < 2 ^ 32 ∧
      (run (string_tree_new_size 8)
        [Op.add "a", Op.finalize, Op.add "b", Op.add "c"]).token_indices.length ≤ 2 ^ 32 ∧
      1 = string_tree_num_tokens (run (string_tree_new_size 8)
        [Op.add "a", Op.finalize, Op.add "b", Op.add "c"]) ∧
      1 < (added [Op.add "a", Op.finalize, Op.add "b", Op.add "c"]).current.length) ∧
      string_tree_get_alternative (run (string_tree_new_size 8)
        [Op.add "a", Op.finalize, Op.add "b", Op.add "c"]) 1 1 = some "c" :=
  ⟨⟨by decide, by decide, by decide, by decide⟩,
   ((get_alternative_out_of_range 8 [Op.add "a", Op.finalize, Op.add "b", Op.add "c"]
      (by decide) (by decide) 1 1).2 (by decide)).2.1 (by decide)⟩

/-- C9 evaluated where it fails: on a fresh store `num_tokens()` is `0`, and
`num_alternatives(0)` passes the guard (`0 < n = 1`) and reads `a[1]`, one past
the end of the boundary array; the same happens at `i = num_tokens() = 1` on a
store with one finalized token.  Above `num_tokens()` the result is `0`. -/
theorem num_alternatives_reads_past_end :
    string_tree_num_tokens string_tree_new = 0 ∧
      string_tree_new.token_indices.length = 1 ∧
      string_tree_num_alternatives string_tree_new 0 = none ∧
      string_tree_num_tokens (build [["a", "b"]]) = 1 ∧
      (build [["a", "b"]]).token_indices.length = 2 ∧
      string_tree_num_alternatives (build [["a", "b"]]) 1 = none ∧
      string_tree_num_alternatives (build [["a", "b"]]) 2 = some 0 := by
  decide

/-! ## Mixed-radix counting -/

theorem digits_lsf_length (Rl : List Nat) (k : Nat) : (digits_lsf Rl k).length = Rl.length := by
  induction Rl generalizing k with
  | nil => rfl
  | cons r rs ih => simp [digits_lsf, ih]

theorem digits_lsf_zero (Rl : List Nat) : digits_lsf Rl 0 = List.replicate Rl.length 0 := by
  induction Rl with
  | nil => rfl
  | cons r rs ih => simp [digits_lsf, ih, List.replicate_succ]

theorem digits_lsf_bounded (Rl : List Nat) (hpos : ∀ r ∈ Rl, 0 < r) (k : Nat) :
    List.Forall₂ (· < ·) (digits_lsf Rl k) Rl := by
  induction Rl generalizing k with
  | nil => exact List.Forall₂.nil
  | cons r rs ih =>
    refine List.Forall₂.cons (Nat.mod_lt _ (hpos r (List.mem_cons_self _ _))) (ih ?_ _)
    intro x hx
    exact hpos x (List.mem_cons_of_mem _ hx)

theorem value_digits_lsf (Rl : List Nat) (k : Nat) :
    value_lsf Rl (digits_lsf Rl k) = k % Rl.prod := by
  induction Rl generalizing k with
  | nil => simp [value_lsf, digits_lsf, Nat.mod_one]
  | cons r rs ih =>
    simp only [digits_lsf, value_lsf, List.prod_cons, ih]
    exact Nat.mod_mul.symm

theorem digits_value_lsf (Rl ds : List Nat) (hb : List.Forall₂ (· < ·) ds Rl) :
    digits_lsf Rl (value_lsf Rl ds) = ds := by
  induction hb with
  | nil => rfl
  | @cons d r ds rs hd _ ih =>
    simp only [digits_lsf, value_lsf]
    have e1 : (d + r * value_lsf rs ds) % r = d := by
      rw [Nat.add_mul_mod_self_left, Nat.mod_eq_of_lt hd]
    have e2 : (d + r * value_lsf rs ds) / r = value_lsf rs ds := by
      rw [Nat.add_mul_div_left _ _ (by omega), Nat.div_eq_of_lt hd, Nat.zero_add]
    rw [e1, e2, ih]

theorem value_lsf_lt (Rl ds : List Nat) (hb : List.Forall₂ (· < ·) ds Rl) :
    value_lsf Rl ds < Rl.prod := by
  induction hb with
  | nil => simp [value_lsf]
  | @cons d r ds rs hd _ ih =>
    simp only [value_lsf, List.prod_cons]
    calc d + r * value_lsf rs ds < r + r * value_lsf rs ds := by omega
      _ = r * (value_lsf rs ds + 1) := by ring
      _ ≤ r * rs.prod := Nat.mul_le_mul_left _ ih

theorem succ_div_mod_of_wrap (k r : Nat) (h : k % r + 1 = r) :
    (k + 1) % r = 0 ∧ (k + 1) / r = k / r + 1 := by
  have hr : 0 < r := by omega
  have e : k + 1 = r * (k / r + 1) := by
    have := Nat.div_add_mod k r
    rw [Nat.mul_add, Nat.mul_one]
    omega
  rw [e]
  exact ⟨Nat.mul_mod_right _ _, Nat.mul_div_cancel_left _ hr⟩

theorem succ_div_mod_of_no_wrap (k r : Nat) (hr : 0 < r) (h : k % r + 1 ≠ r) :
    (k + 1) % r = k % r + 1 ∧ (k + 1) / r = k / r := by
  have hlt : k % r < r := Nat.mod_lt _ hr
  have := (Nat.div_mod_unique (a := k + 1) (c := k % r + 1) (d := k / r) hr).mpr
    ⟨by have := Nat.mod_add_div k r; omega, by omega⟩
  exact ⟨this.2, this.1⟩

/-- One odometer step on the digits of `k` gives the digits of `k + 1`; the
carry leaves the last digit exactly when the product of the radices divides
`k + 1`. -/
theorem incr_digits_lsf (Rl : List Nat) (hpos : ∀ r ∈ Rl, 0 < r) (k : Nat) :
    incr_lsf Rl (digits_lsf Rl k) = (digits_lsf Rl (k + 1), decide (Rl.prod ∣ k + 1)) := by
  induction Rl generalizing k with
  | nil => simp [incr_lsf, digits_lsf]
  | cons r rs ih =>
    have hr : 0 < r := hpos r (List.mem_cons_self _ _)
    have ih2 := ih (fun x hx => hpos x (List.mem_cons_of_mem _ hx))
    simp only [digits_lsf, incr_lsf, List.prod_cons]
    by_cases h : k % r + 1 = r
    · obtain ⟨e1, e2⟩ := succ_div_mod_of_wrap k r h
      rw [if_pos h, ih2, e1, e2]
      have e : k + 1 = r * (k / r + 1) := by
        have := Nat.div_add_mod (k + 1) r
        rw [e1, e2] at this
        omega
      have : (r * rs.prod ∣ k + 1) ↔ (rs.prod ∣ k / r + 1) := by
        rw [e]
        exact Nat.mul_dvd_mul_iff_left hr
      simp only [this]
    · obtain ⟨e1, e2⟩ := succ_div_mod_of_no_wrap k r hr h
      rw [if_neg h, e1, e2]
      have : ¬ (r * rs.prod ∣ k + 1) := by
        intro hd
        have hdr : r ∣ k + 1 := Dvd.dvd.trans (Dvd.intro _ rfl) hd
        have := Nat.mod_eq_zero_of_dvd hdr
        omega
      simp [this]

theorem digits_lsf_concat (as : List Nat) (r k : Nat) :
    digits_lsf (as ++ [r]) k = digits_lsf as k ++ [(k / as.prod) % r] := by
  induction as generalizing k with
  | nil => simp [digits_lsf]
  | cons a as ih =>
    have e : (a :: as) ++ [r] = a :: (as ++ [r]) := rfl
    rw [e]
    simp only [digits_lsf, ih, List.prod_cons, Nat.div_div_eq_div_mul, List.cons_append]

theorem mixed_radix_eq (R : List Nat) (k : Nat) :
    mixed_radix R k = (digits_lsf R.reverse k).reverse := by
  induction R with
  | nil => rfl
  | cons r rs ih =>
    simp only [mixed_radix, List.reverse_cons, digits_lsf_concat, List.reverse_append,
      List.reverse_singleton, List.singleton_append, List.prod_reverse, ih]
    rfl

/-! ## The iterator -/

theorem getElem?_append_cons_length (xs ys : List Nat) (y : Nat) :
    (xs ++ y :: ys)[xs.length]? = some y := by
  rw [List.getElem?_append_right (Nat.le_refl _)]
  simp

theorem set_append_cons_length (xs ys : List Nat) (y z : Nat) :
    (xs ++ y :: ys).set xs.length z = xs ++ z :: ys := by
  rw [List.set_append, if_neg (Nat.lt_irrefl _)]
  simp

/-- The odometer loop of `string_tree_iterator_next`, run on the first
`fr.length` selectors, performs one odometer step on them (read from the last
selector to the first) and leaves the other selectors unchanged. -/
theorem next_loop_spec (tree : string_tree_t) (fr Rl : List Nat)
    (hb : List.Forall₂ (· < ·) fr Rl) (hr : ∀ r ∈ Rl, r < 2 ^ 32)
    (hna : ∀ m, m < Rl.length →
      string_tree_num_alternatives tree (Rl.length - 1 - m) = Rl[m]?)
    (back : List Nat) (rem : Nat) :
    next_loop tree fr.length (fr.reverse ++ back) rem
      = some ((incr_lsf Rl fr).1.reverse ++ back,
          (if (incr_lsf Rl fr).2 then rem else (rem + 2 ^ 32 - 1) % 2 ^ 32),
          (incr_lsf Rl fr).2) := by
  induction hb generalizing back with
  | nil => simp [next_loop, incr_lsf]
  | @cons d r ds rs hd hrest ih =>
    have hlen : ds.length = rs.length := hrest.length_eq
    have hr0 : r < 2 ^ 32 := hr r (List.mem_cons_self _ _)
    have hna0 : string_tree_num_alternatives tree ds.length = some r := by
      have := hna 0 (by simp)
      simpa [hlen] using this
    have ih2 := ih (fun x hx => hr x (List.mem_cons_of_mem _ hx)) (by
      intro m hm
      have := hna (m + 1) (by simp; omega)
      have e : (r :: rs).length - 1 - (m + 1) = rs.length - 1 - m := by simp; omega
      rw [e] at this
      simpa using this)
    have hpath : (d :: ds).reverse ++ back = ds.reverse ++ d :: back := by simp
    have hl : ds.length = ds.reverse.length := by simp
    have hget : (ds.reverse ++ d :: back)[ds.length]? = some d := by
      conv_lhs => rw [hl]
      exact getElem?_append_cons_length _ _ _
    have hset : ∀ v w, (ds.reverse ++ w :: back).set ds.length v = ds.reverse ++ v :: back := by
      intro v w
      conv_lhs => rw [hl]
      exact set_append_cons_length _ _ _ _
    have hmod : (d + 1) % 2 ^ 32 = d + 1 := Nat.mod_eq_of_lt (by omega)
    rw [hpath, List.length_cons, next_loop]
    simp only [hget, hna0, Option.bind_eq_bind, Option.some_bind, hmod, hset, incr_lsf]
    by_cases h : d + 1 = r
    · simp only [if_pos h, ih2 (0 :: back)]
      simp
    · simp only [if_neg h]
      simp

theorem radices_length (s : string_tree_t) : (radices s).length = string_tree_num_tokens s := by
  simp [radices, alternative_counts]

/-- Under the boundary invariant `string_tree_num_alternatives` returns the
radix of every finalized token. -/
theorem num_alternatives_eq_radix (s : string_tree_t) (h : boundary_invariant s) (i : Nat)
    (hi : i < string_tree_num_tokens s) :
    string_tree_num_alternatives s i = (radices s)[i]? ∧
      ∃ r, (radices s)[i]? = some r ∧ 0 < r ∧ r < 2 ^ 32 := by
  obtain ⟨lo, up, h1, h2, h3, h4, h5⟩ := num_alternatives_of_invariant s h i hi
  have e : (radices s)[i]? = some (max 1 (up - lo)) := by
    unfold radices alternative_counts
    rw [List.getElem?_map, List.getElem?_map, List.getElem?_range hi]
    simp [List.getD_eq_getElem?_getD, h1, h2]
  refine ⟨by rw [h5, e], _, e, ?_, ?_⟩
  · omega
  · omega

theorem radices_pos (s : string_tree_t) : ∀ r ∈ radices s, 0 < r := by
  intro r hr
  unfold radices at hr
  rw [List.mem_map] at hr
  obtain ⟨a, -, rfl⟩ := hr
  omega

theorem radices_lt (s : string_tree_t) (h : boundary_invariant s) :
    ∀ r ∈ radices s, r < 2 ^ 32 := by
  intro r hr
  obtain ⟨i, hi⟩ := List.mem_iff_getElem?.mp hr
  have hlt : i < string_tree_num_tokens s := by
    rw [← radices_length]
    exact (List.getElem?_eq_some.mp hi).1
  obtain ⟨-, r2, e, -, h2⟩ := num_alternatives_eq_radix s h i hlt
  rw [hi] at e
  injection e with e
  omega

theorem num_alternatives_reverse (s : string_tree_t) (h : boundary_invariant s) (m : Nat)
    (hm : m < (radices s).reverse.length) :
    string_tree_num_alternatives s ((radices s).reverse.length - 1 - m)
      = (radices s).reverse[m]? := by
  rw [List.length_reverse] at hm ⊢
  rw [List.getElem?_reverse hm]
  refine (num_alternatives_eq_radix s h _ ?_).1
  rw [radices_length] at hm ⊢
  omega

theorem permutation_product_pos (s : string_tree_t) : 0 < permutation_product s :=
  List.prod_pos (radices_pos s)

/-- The counting loop of `string_tree_iterator_new` multiplies the radices of
the remaining tokens into the accumulator, modulo `2 ^ 32`. -/
theorem permutations_loop_spec (s : string_tree_t) (h : boundary_invariant s)
    (fuel i acc : Nat) (hi : i + fuel = string_tree_num_tokens s) (hacc : acc < 2 ^ 32) :
    permutations_loop s fuel i acc = some (acc * ((radices s).drop i).prod % 2 ^ 32) := by
  induction fuel generalizing i acc with
  | zero =>
    rw [List.drop_of_length_le (by rw [radices_length]; omega)]
    simp only [permutations_loop, List.prod_nil, Nat.mul_one]
    rw [Nat.mod_eq_of_lt hacc]
  | succ fuel ih =>
    have hlt : i < string_tree_num_tokens s := by omega
    obtain ⟨e1, r, e2, hpos, -⟩ := num_alternatives_eq_radix s h i hlt
    obtain ⟨hlen, e3⟩ := List.getElem?_eq_some.mp e2
    rw [List.drop_eq_getElem_cons hlen, e3, List.prod_cons]
    unfold permutations_loop
    rw [e1, e2]
    simp only [Option.bind_eq_bind, Option.some_bind, if_pos hpos]
    rw [ih (i + 1) _ (by omega) (Nat.mod_lt _ (by norm_num)), Nat.mod_mul_mod, Nat.mul_assoc]

/-- The iterator that `string_tree_iterator_new` returns on a store that
satisfies the boundary invariant and has fewer than `2 ^ 31` tokens. -/
theorem iterator_new_spec (s : string_tree_t) (h : boundary_invariant s)
    (hn : string_tree_num_tokens s < 2 ^ 31) :
    string_tree_iterator_new s = some
      { tree := s
        path := List.replicate (string_tree_num_tokens s) 0
        num_tokens := string_tree_num_tokens s
        remaining := if permutation_product s % 2 ^ 32 > 1
          then permutation_product s % 2 ^ 32 else 1 } := by
  unfold string_tree_iterator_new
  simp only
  rw [if_neg (by omega), permutations_loop_spec s h _ 0 1 (by omega) (by norm_num)]
  simp only [Option.bind_eq_bind, Option.some_bind, List.drop_zero, Nat.one_mul]
  rfl

theorem iterator_new_odometer (s : string_tree_t) (h : boundary_invariant s)
    (hn : string_tree_num_tokens s < 2 ^ 31) (hP : permutation_product s < 2 ^ 32) :
    string_tree_iterator_new s = some (odometer_state s 0) := by
  rw [iterator_new_spec s h hn]
  have hpos := permutation_product_pos s
  unfold odometer_state
  rw [digits_lsf_zero, List.reverse_replicate, List.length_reverse, radices_length,
    Nat.mod_eq_of_lt hP]
  have e : (if permutation_product s > 1 then permutation_product s else 1)
      = permutation_product s - 0 := by
    split <;> omega
  rw [e]

theorem to_int32_pred_pos (n : Nat) (h0 : 0 < n) (hn : n ≤ 2 ^ 31) :
    to_int32 ((n + 2 ^ 32 - 1) % 2 ^ 32) = ((n - 1 : Nat) : Int) := by
  unfold to_int32
  split <;> omega

theorem to_int32_pred_zero : to_int32 ((0 + 2 ^ 32 - 1) % 2 ^ 32) = -1 := by
  unfold to_int32
  split <;> omega

/-- One call of `string_tree_iterator_next` moves the iterator from
combination `k` to combination `k + 1`, for `k < P`; at `k + 1 = P` the
selectors are those of `P` (all zero) and `remaining` is `0`. -/
theorem iterator_next_odometer (s : string_tree_t) (h : boundary_invariant s)
    (hn : string_tree_num_tokens s < 2 ^ 31) (hP : permutation_product s < 2 ^ 32)
    (k : Nat) (hk : k < permutation_product s) :
    string_tree_iterator_next (odometer_state s k) = some (odometer_state s (k + 1)) := by
  have hRl : (radices s).reverse.length = string_tree_num_tokens s := by
    rw [List.length_reverse, radices_length]
  have hpos : ∀ r ∈ (radices s).reverse, 0 < r := by
    intro r hr
    exact radices_pos s r (List.mem_reverse.mp hr)
  have hlt : ∀ r ∈ (radices s).reverse, r < 2 ^ 32 := by
    intro r hr
    exact radices_lt s h r (List.mem_reverse.mp hr)
  have hprod : (radices s).reverse.prod = permutation_product s := by
    rw [List.prod_reverse]; rfl
  unfold string_tree_iterator_next
  have hrem : (odometer_state s k).remaining > 0 := by
    show permutation_product s - k > 0
    omega
  rw [if_pos hrem]
  simp only
  rcases Nat.eq_zero_or_pos (string_tree_num_tokens s) with h0 | h0
  · have hR : radices s = [] := List.eq_nil_of_length_eq_zero (by rw [radices_length, h0])
    have hP1 : permutation_product s = 1 := by
      unfold permutation_product; rw [hR]; rfl
    have hk0 : k = 0 := by omega
    subst hk0
    have e : (odometer_state s 0).num_tokens = 0 := h0
    rw [e, to_int32_pred_zero, if_pos (by decide)]
    unfold odometer_state
    rw [hR, hP1, h0]
    rfl
  · have e : (odometer_state s k).num_tokens = string_tree_num_tokens s := rfl
    rw [e, to_int32_pred_pos _ h0 (by omega), if_neg (by omega)]
    have e2 : ((string_tree_num_tokens s - 1 : Nat) : Int).toNat + 1
        = (digits_lsf (radices s).reverse k).length := by
      rw [digits_lsf_length, hRl, Int.toNat_ofNat]
      omega
    have e3 : (odometer_state s k).path = (digits_lsf (radices s).reverse k).reverse ++ [] := by
      simp [odometer_state]
    have e5 : (odometer_state s k).tree = s := rfl
    rw [e2, e3, e5,
      next_loop_spec s _ _ (digits_lsf_bounded _ hpos k) hlt
        (num_alternatives_reverse s h) [] _,
      incr_digits_lsf _ hpos k, hprod]
    rw [Option.bind_eq_bind, Option.some_bind]
    have e6 : (odometer_state s k).remaining = permutation_product s - k := rfl
    rw [e6]
    unfold odometer_state
    by_cases hd : permutation_product s ∣ k + 1
    · have hle := Nat.le_of_dvd (by omega) hd
      have e7 : permutation_product s - (k + 1) = 0 := by omega
      rw [decide_eq_true hd, e7]
      simp only [if_true, List.append_nil]
    · have e7 : (permutation_product s - k + 2 ^ 32 - 1) % 2 ^ 32
          = permutation_product s - (k + 1) := by omega
      rw [decide_eq_false hd, e7]
      simp only [Bool.false_eq_true, if_false, List.append_nil]

theorem odometer_state_path (s : string_tree_t) (k : Nat) :
    (odometer_state s k).path = (digits_lsf (radices s).reverse k).reverse := by
  simp only [odometer_state]

theorem odometer_state_remaining (s : string_tree_t) (k : Nat) :
    (odometer_state s k).remaining = permutation_product s - k := by
  simp only [odometer_state]

theorem advance_n_succ (k : Nat) (it : string_tree_iterator_t) :
    advance_n (k + 1) it = (advance_n k it).bind string_tree_iterator_next := by
  induction k generalizing it with
  | zero =>
    simp only [advance_n, Option.some_bind]
    cases string_tree_iterator_next it <;> rfl
  | succ k ih =>
    rw [advance_n]
    cases hnx : string_tree_iterator_next it with
    | none => simp [advance_n, hnx]
    | some it2 =>
      simp only [Option.some_bind]
      rw [ih it2]
      conv_rhs => rw [advance_n, hnx, Option.some_bind]

/-- After `k ≤ P` calls of `string_tree_iterator_next` a new iterator shows
combination number `k`. -/
theorem advance_n_odometer (s : string_tree_t) (h : boundary_invariant s)
    (hn : string_tree_num_tokens s < 2 ^ 31) (hP : permutation_product s < 2 ^ 32)
    (k : Nat) (hk : k ≤ permutation_product s) :
    (string_tree_iterator_new s).bind (advance_n k) = some (odometer_state s k) := by
  rw [iterator_new_odometer s h hn hP, Option.some_bind]
  induction k with
  | zero => rfl
  | succ k ih =>
    rw [advance_n_succ, ih (by omega), Option.some_bind]
    exact iterator_next_odometer s h hn hP k (by omega)

theorem in_product_iff (s : string_tree_t) (h : boundary_invariant s) (p : List Nat) :
    in_product s p ↔ List.Forall₂ (· < ·) p (radices s) := by
  constructor
  · rintro ⟨hlen, hp⟩
    refine List.forall₂_of_length_eq_of_get (by rw [hlen, radices_length]) ?_
    intro i h1 h2
    obtain ⟨n, hn, hd⟩ := hp i _ (List.getElem?_eq_getElem h1)
    rw [(num_alternatives_eq_radix s h i (by omega)).1, List.getElem?_eq_getElem h2] at hn
    have hn2 := Option.some.inj hn
    simp only [List.get_eq_getElem]
    omega
  · intro hf
    have hlen := hf.length_eq
    rw [radices_length] at hlen
    refine ⟨hlen, ?_⟩
    intro i d hd
    obtain ⟨h1, rfl⟩ := List.getElem?_eq_some.mp hd
    have h2 : i < (radices s).length := by rw [radices_length]; omega
    refine ⟨(radices s)[i], ?_, ?_⟩
    · rw [(num_alternatives_eq_radix s h i (by omega)).1, List.getElem?_eq_getElem h2]
    · have := hf.get h1 h2
      simpa only [List.get_eq_getElem] using this

theorem incr_lsf_bounded (Rl fr : List Nat) (hb : List.Forall₂ (· < ·) fr Rl) :
    List.Forall₂ (· < ·) (incr_lsf Rl fr).1 Rl := by
  induction hb with
  | nil => exact List.Forall₂.nil
  | @cons d r ds rs hd hrest ih =>
    unfold incr_lsf
    by_cases h : d + 1 = r
    · rw [if_pos h]
      exact List.Forall₂.cons (by omega) ih
    · rw [if_neg h]
      exact List.Forall₂.cons (by omega) hrest

theorem next_loop_spec_all (tree : string_tree_t) (fr Rl : List Nat)
    (hb : List.Forall₂ (· < ·) fr Rl) (hr : ∀ r ∈ Rl, r < 2 ^ 32)
    (hna : ∀ m, m < Rl.length →
      string_tree_num_alternatives tree (Rl.length - 1 - m) = Rl[m]?)
    (rem : Nat) :
    next_loop tree fr.length fr.reverse rem
      = some ((incr_lsf Rl fr).1.reverse,
          (if (incr_lsf Rl fr).2 then rem else (rem + 2 ^ 32 - 1) % 2 ^ 32),
          (incr_lsf Rl fr).2) := by
  have := next_loop_spec tree fr Rl hb hr hna [] rem
  simp only [List.append_nil] at this
  exact this

theorem iterator_next_of_loop (it : string_tree_iterator_t) (tree : string_tree_t) (n : Nat)
    (A : List Nat) (B : Nat) (C : Bool) (ht : it.tree = tree) (hpos : it.remaining > 0)
    (hi : to_int32 ((it.num_tokens + 2 ^ 32 - 1) % 2 ^ 32) = (n : Int))
    (hloop : next_loop tree (n + 1) it.path it.remaining = some (A, B, C)) :
    string_tree_iterator_next it
      = some { tree := it.tree, path := A, num_tokens := it.num_tokens,
               remaining := if C then 0 else B } := by
  unfold string_tree_iterator_next
  rw [if_pos hpos]
  simp only
  rw [hi, if_neg (by omega), Int.toNat_ofNat, ht, hloop]
  rfl

theorem iterator_next_of_no_token (it : string_tree_iterator_t) (hpos : it.remaining > 0)
    (h0 : it.num_tokens = 0) :
    string_tree_iterator_next it
      = some { tree := it.tree, path := it.path, num_tokens := it.num_tokens,
               remaining := 0 } := by
  unfold string_tree_iterator_next
  rw [if_pos hpos]
  simp only
  rw [h0, to_int32_pred_zero, if_pos (by decide)]

theorem iterator_next_of_done (it : string_tree_iterator_t) (hz : it.remaining = 0) :
    string_tree_iterator_next it = some it := by
  unfold string_tree_iterator_next
  rw [if_neg (by omega)]

theorem iterator_wf_of_fields (s tree : string_tree_t) (path : List Nat) (n rem : Nat)
    (ht : tree = s) (hnt : n = string_tree_num_tokens s)
    (hf : List.Forall₂ (· < ·) path (radices s)) (hrem : rem < 2 ^ 32) :
    iterator_wf s { tree := tree, path := path, num_tokens := n, remaining := rem } :=
  ⟨ht, hnt, hf, hrem⟩

theorem incr_lsf_flag (Rl fr : List Nat) (hb : List.Forall₂ (· < ·) fr Rl) :
    (incr_lsf Rl fr).2 = true ↔ (incr_lsf Rl fr).1 = List.replicate fr.length 0 := by
  induction hb with
  | nil => simp [incr_lsf]
  | @cons d r ds rs hd hrest ih =>
    unfold incr_lsf
    by_cases h : d + 1 = r
    · rw [if_pos h, List.length_cons, List.replicate_succ]
      simp only [List.cons.injEq, true_and]
      exact ih
    · rw [if_neg h, List.length_cons, List.replicate_succ]
      simp

/-- A call of `string_tree_iterator_next` on a well-formed iterator reads
inside its arrays, returns a well-formed iterator, changes nothing when
`remaining` is `0`, and otherwise makes `remaining` strictly smaller: the
carry either leaves the first token (the path is all zeros again and
`remaining` becomes `0`) or stops at a token (`remaining` decreases by 1). -/
theorem iterator_next_wf (s : string_tree_t) (h : boundary_invariant s)
    (hn : string_tree_num_tokens s < 2 ^ 31) (it : string_tree_iterator_t)
    (hw : iterator_wf s it) :
    ∃ it2, string_tree_iterator_next it = some it2 ∧ iterator_wf s it2 ∧
      (it.remaining = 0 → it2 = it) ∧ (0 < it.remaining → it2.remaining < it.remaining) ∧
      (0 < it.remaining →
        (it2.path = List.replicate it.num_tokens 0 ∧ it2.remaining = 0) ∨
        (it2.path ≠ List.replicate it.num_tokens 0 ∧
          it2.remaining = it.remaining - 1)) := by
  obtain ⟨ht, hnt, hf, hrem⟩ := hw
  have hRl : (radices s).reverse.length = string_tree_num_tokens s := by
    rw [List.length_reverse, radices_length]
  have hlt : ∀ r ∈ (radices s).reverse, r < 2 ^ 32 := by
    intro r hr
    exact radices_lt s h r (List.mem_reverse.mp hr)
  have hfr : List.Forall₂ (· < ·) it.path.reverse (radices s).reverse :=
    List.forall₂_reverse_iff.mpr hf
  have hplen : it.path.length = it.num_tokens := by
    rw [hf.length_eq, radices_length, hnt]
  by_cases hpos : it.remaining > 0
  · rcases Nat.eq_zero_or_pos (string_tree_num_tokens s) with h0 | h0
    · rw [iterator_next_of_no_token it hpos (by rw [hnt, h0])]
      have hnil : it.path = List.replicate it.num_tokens 0 := by
        have hz : it.num_tokens = 0 := by rw [hnt, h0]
        rw [hz] at hplen ⊢
        rw [List.eq_nil_of_length_eq_zero hplen]
        rfl
      refine ⟨_, rfl, iterator_wf_of_fields s _ _ _ _ ht hnt hf ?_, ?_, ?_, ?_⟩
      · norm_num
      · intro e
        omega
      · intro _
        exact hpos
      · intro _
        exact Or.inl ⟨hnil, rfl⟩
    · have hi : to_int32 ((it.num_tokens + 2 ^ 32 - 1) % 2 ^ 32)
          = ((string_tree_num_tokens s - 1 : Nat) : Int) := by
        rw [hnt]
        exact to_int32_pred_pos _ h0 (by omega)
      have hlen : string_tree_num_tokens s - 1 + 1 = it.path.reverse.length := by
        rw [hfr.length_eq, hRl]
        omega
      have hloop := next_loop_spec_all s _ _ hfr hlt (num_alternatives_reverse s h) it.remaining
      rw [List.reverse_reverse, ← hlen] at hloop
      have hb2 := incr_lsf_bounded _ _ hfr
      rw [← List.forall₂_reverse_iff, List.reverse_reverse] at hb2
      have hflag := incr_lsf_flag _ _ hfr
      rw [List.length_reverse, hplen, ← List.reverse_inj, List.reverse_replicate] at hflag
      generalize incr_lsf (radices s).reverse it.path.reverse = r at hloop hb2 hflag
      generalize hB : (if r.2 = true
          then it.remaining else (it.remaining + 2 ^ 32 - 1) % 2 ^ 32) = B at hloop
      have hB1 : B < 2 ^ 32 := by
        rw [← hB]
        split <;> omega
      have hB2 : ¬ r.2 = true → B < it.remaining := by
        intro hc
        rw [← hB, if_neg hc]
        omega
      have hB3 : ¬ r.2 = true → B = it.remaining - 1 := by
        intro hc
        rw [← hB, if_neg hc]
        omega
      clear hB
      rw [iterator_next_of_loop it s (string_tree_num_tokens s - 1) _ _ _ ht hpos hi hloop]
      refine ⟨_, rfl, iterator_wf_of_fields s _ _ _ _ ht hnt hb2 ?_, ?_, ?_, ?_⟩
      · split <;> omega
      · intro e
        omega
      · intro _
        show (if r.2 = true then 0 else B) < it.remaining
        split
        · omega
        · exact hB2 (by assumption)
      · intro _
        show (r.1.reverse = List.replicate it.num_tokens 0 ∧ (if r.2 = true then 0 else B) = 0) ∨
          (r.1.reverse ≠ List.replicate it.num_tokens 0 ∧
            (if r.2 = true then 0 else B) = it.remaining - 1)
        by_cases hc : r.2 = true
        · exact Or.inl ⟨hflag.mp hc, by rw [if_pos hc]⟩
        · exact Or.inr ⟨fun e => hc (hflag.mpr e), by rw [if_neg hc]; exact hB3 hc⟩
  · rw [iterator_next_of_done it (by omega)]
    refine ⟨_, rfl, ⟨ht, hnt, hf, hrem⟩, fun _ => rfl, ?_, ?_⟩
    · intro h1
      exact absurd h1 hpos
    · intro h1
      exact absurd h1 hpos

/-- Every number of advances from creation succeeds and ends in a well-formed
iterator, whether or not the permutation count overflowed. -/
theorem advance_n_wf (s : string_tree_t) (h : boundary_invariant s)
    (hn : string_tree_num_tokens s < 2 ^ 31) (k : Nat) :
    ∃ it, (string_tree_iterator_new s).bind (advance_n k) = some it ∧ iterator_wf s it := by
  rw [iterator_new_spec s h hn, Option.some_bind]
  induction k with
  | zero =>
    refine ⟨_, rfl, ?_, ?_, ?_, ?_⟩
    · simp only
    · simp only
    · simp only
      refine List.forall₂_of_length_eq_of_get (by simp [radices_length]) ?_
      intro i h1 h2
      have := radices_pos s _ (List.get_mem (radices s) i h2)
      simpa using this
    · simp only
      have := Nat.mod_lt (permutation_product s) (show 2 ^ 32 > 0 by norm_num)
      split <;> omega
  | succ k ih =>
    obtain ⟨it, hit, hw⟩ := ih
    obtain ⟨it2, hit2, hw2, -, -⟩ := iterator_next_wf s h hn it hw
    exact ⟨it2, by rw [advance_n_succ, hit, Option.some_bind, hit2], hw2⟩

theorem flatten_take_succ_length (fin : List (List String)) (i : Nat) (alts : List String)
    (hi : fin[i]? = some alts) :
    (fin.take (i + 1)).flatten.length = (fin.take i).flatten.length + alts.length := by
  rw [List.take_succ, hi]
  simp [List.flatten_append]

/-! ## Claims about the iterator -/

/-- C1: for every store built from a fresh one by building calls (its string
count fitting in 32 bits, its boundary count at most `2 ^ 31`) whose
permutation product `P` is below `2 ^ 32`, the paths observed at creation and
after each of the first `P - 1` advances all lie in the Cartesian product of
the ranges `[0, num_alternatives(i))`, are pairwise distinct, and every
element of the product is among them. -/
theorem paths_enumerate_product (size : Nat) (ops : List Op) (s : string_tree_t)
    (hrun : s = run (string_tree_new_size size) ops)
    (hs : s.strings.entries.length < 2 ^ 32) (ht : s.token_indices.length ≤ 2 ^ 31)
    (hP : permutation_product s < 2 ^ 32) :
    (∀ k, k < permutation_product s →
      ∃ it, (string_tree_iterator_new s).bind (advance_n k) = some it ∧ in_product s it.path) ∧
    (∀ j k itj itk, j < permutation_product s → k < permutation_product s →
      (string_tree_iterator_new s).bind (advance_n j) = some itj →
      (string_tree_iterator_new s).bind (advance_n k) = some itk →
      itj.path = itk.path → j = k) ∧
    (∀ p, in_product s p →
      ∃ k it, k < permutation_product s ∧
        (string_tree_iterator_new s).bind (advance_n k) = some it ∧ it.path = p) := by
  subst hrun
  have h := run_invariant size ops hs (by omega)
  have hn : string_tree_num_tokens (run (string_tree_new_size size) ops) < 2 ^ 31 := by
    have := (invariant_length _ h).1
    omega
  have hpos : ∀ r ∈ (radices (run (string_tree_new_size size) ops)).reverse, 0 < r := by
    intro r hr
    exact radices_pos _ r (List.mem_reverse.mp hr)
  have hprod : (radices (run (string_tree_new_size size) ops)).reverse.prod
      = permutation_product (run (string_tree_new_size size) ops) := by
    rw [List.prod_reverse]; rfl
  refine ⟨?_, ?_, ?_⟩
  · intro k hk
    refine ⟨_, advance_n_odometer _ h hn hP k (by omega), ?_⟩
    rw [in_product_iff _ h, odometer_state_path, ← List.forall₂_reverse_iff,
      List.reverse_reverse]
    exact digits_lsf_bounded _ hpos k
  · intro j k itj itk hj hk h1 h2 he
    rw [advance_n_odometer _ h hn hP j (by omega)] at h1
    rw [advance_n_odometer _ h hn hP k (by omega)] at h2
    have h1 := Option.some.inj h1
    have h2 := Option.some.inj h2
    rw [← h1, ← h2, odometer_state_path, odometer_state_path] at he
    have he2 := List.reverse_injective he
    have hv := congrArg (value_lsf (radices (run (string_tree_new_size size) ops)).reverse) he2
    rw [value_digits_lsf, value_digits_lsf, hprod, Nat.mod_eq_of_lt hj,
      Nat.mod_eq_of_lt hk] at hv
    exact hv
  · intro p hp
    rw [in_product_iff _ h] at hp
    have hb : List.Forall₂ (· < ·) p.reverse
        (radices (run (string_tree_new_size size) ops)).reverse :=
      List.forall₂_reverse_iff.mpr hp
    have hlt := value_lsf_lt _ _ hb
    rw [hprod] at hlt
    refine ⟨_, _, hlt, advance_n_odometer _ h hn hP _ (by omega), ?_⟩
    rw [odometer_state_path, digits_value_lsf _ _ hb, List.reverse_reverse]

theorem paths_enumerate_product_witness :
    ((build [["a0", "a1"], [], ["c0", "c1", "c2"]]).strings.entries.length < 2 ^ 32 ∧
      (build [["a0", "a1"], [], ["c0", "c1", "c2"]]).token_indices.length ≤ 2 ^ 31 ∧
      permutation_product (build [["a0", "a1"], [], ["c0", "c1", "c2"]]) < 2 ^ 32) ∧
    ∀ p, in_product (build [["a0", "a1"], [], ["c0", "c1", "c2"]]) p →
      ∃ k it, k < permutation_product (build [["a0", "a1"], [], ["c0", "c1", "c2"]]) ∧
        (string_tree_iterator_new (build [["a0", "a1"], [], ["c0", "c1", "c2"]])).bind
          (advance_n k) = some it ∧ it.path = p :=
  ⟨⟨by decide, by decide, by decide⟩,
   (paths_enumerate_product DEFAULT_STRING_TREE_SIZE
      (build_ops [["a0", "a1"], [], ["c0", "c1", "c2"]])
      (build [["a0", "a1"], [], ["c0", "c1", "c2"]]) rfl
      (by decide) (by decide) (by decide)).2.2⟩

/-- C2: odometer order.  For every store satisfying the boundary invariant,
with fewer than `2 ^ 31` tokens and permutation product `P < 2 ^ 32`, and
every `k < P`, after `k` advances from creation the path is the mixed-radix
representation of `k`, the radix at token `i` being `num_alternatives(i)` and
the last token the least significant digit. -/
theorem odometer_order (s : string_tree_t) (h : boundary_invariant s)
    (hn : string_tree_num_tokens s < 2 ^ 31) (hP : permutation_product s < 2 ^ 32)
    (k : Nat) (hk : k < permutation_product s) :
    (∀ i, i < string_tree_num_tokens s →
      string_tree_num_alternatives s i = (radices s)[i]?) ∧
    ∃ it, (string_tree_iterator_new s).bind (advance_n k) = some it ∧
      it.path = mixed_radix (radices s) k := by
  refine ⟨fun i hi => (num_alternatives_eq_radix s h i hi).1, _,
    advance_n_odometer s h hn hP k (by omega), ?_⟩
  rw [mixed_radix_eq, odometer_state_path]

theorem odometer_order_witness :
    (boundary_invariant (build [["a0", "a1"], ["b0", "b1"]]) ∧
      string_tree_num_tokens (build [["a0", "a1"], ["b0", "b1"]]) < 2 ^ 31 ∧
      permutation_product (build [["a0", "a1"], ["b0", "b1"]]) < 2 ^ 32 ∧
      2 < permutation_product (build [["a0", "a1"], ["b0", "b1"]]) ∧
      mixed_radix (radices (build [["a0", "a1"], ["b0", "b1"]])) 2 = [1, 0]) ∧
    ((∀ i, i < string_tree_num_tokens (build [["a0", "a1"], ["b0", "b1"]]) →
      string_tree_num_alternatives (build [["a0", "a1"], ["b0", "b1"]]) i
        = (radices (build [["a0", "a1"], ["b0", "b1"]]))[i]?) ∧
    ∃ it, (string_tree_iterator_new (build [["a0", "a1"], ["b0", "b1"]])).bind (advance_n 2)
        = some it ∧
      it.path = mixed_radix (radices (build [["a0", "a1"], ["b0", "b1"]])) 2) :=
  ⟨⟨by decide, by decide, by decide, by decide, by decide⟩,
   odometer_order (build [["a0", "a1"], ["b0", "b1"]]) (by decide) (by decide) (by decide) 2
     (by decide)⟩

/-- C3: permutation count.  For every store satisfying the boundary
invariant, with fewer than `2 ^ 31` tokens and permutation product
`P < 2 ^ 32`, after `k ≤ P` advances from creation `remaining` is `P - k`; so
`is_done()` is false after fewer than `P` advances and true after exactly
`P`. -/
theorem remaining_countdown (s : string_tree_t) (h : boundary_invariant s)
    (hn : string_tree_num_tokens s < 2 ^ 31) (hP : permutation_product s < 2 ^ 32)
    (k : Nat) (hk : k ≤ permutation_product s) :
    ∃ it, (string_tree_iterator_new s).bind (advance_n k) = some it ∧
      it.remaining = permutation_product s - k ∧
      (string_tree_iterator_done it = true ↔ k = permutation_product s) := by
  refine ⟨_, advance_n_odometer s h hn hP k hk, odometer_state_remaining s k, ?_⟩
  unfold string_tree_iterator_done
  rw [odometer_state_remaining, beq_iff_eq]
  omega

theorem remaining_countdown_witness :
    (boundary_invariant (build [["a0", "a1"], ["b0"], ["c0", "c1", "c2"]]) ∧
      string_tree_num_tokens (build [["a0", "a1"], ["b0"], ["c0", "c1", "c2"]]) < 2 ^ 31 ∧
      permutation_product (build [["a0", "a1"], ["b0"], ["c0", "c1", "c2"]]) < 2 ^ 32 ∧
      permutation_product (build [["a0", "a1"], ["b0"], ["c0", "c1", "c2"]]) = 6) ∧
    ∃ it, (string_tree_iterator_new (build [["a0", "a1"], ["b0"], ["c0", "c1", "c2"]])).bind
        (advance_n 6) = some it ∧
      it.remaining = permutation_product (build [["a0", "a1"], ["b0"], ["c0", "c1", "c2"]]) - 6 ∧
      (string_tree_iterator_done it = true ↔
        6 = permutation_product (build [["a0", "a1"], ["b0"], ["c0", "c1", "c2"]])) :=
  ⟨⟨by decide, by decide, by decide, by decide⟩,
   remaining_countdown (build [["a0", "a1"], ["b0"], ["c0", "c1", "c2"]]) (by decide)
     (by decide) (by decide) 6 (by decide)⟩

/-- C6: for every store satisfying the boundary invariant with fewer than
`2 ^ 31` tokens, a newly created iterator has an all-zero path with one
selector per token, `num_tokens` equal to the token count of the store, and
`remaining ≥ 1`; when the product of `max(1, alternatives(i))` fits in 32 bits,
`remaining` is that product. -/
theorem iterator_new_remaining (s : string_tree_t) (h : boundary_invariant s)
    (hn : string_tree_num_tokens s < 2 ^ 31) :
    ∃ it, string_tree_iterator_new s = some it ∧
      it.path = List.replicate (string_tree_num_tokens s) 0 ∧
      it.num_tokens = string_tree_num_tokens s ∧
      1 ≤ it.remaining ∧
      (permutation_product s < 2 ^ 32 → it.remaining = permutation_product s) := by
  have hpos := permutation_product_pos s
  refine ⟨_, iterator_new_spec s h hn, ?_, ?_, ?_, ?_⟩
  · simp only
  · simp only
  · simp only
    split <;> omega
  · intro hP
    simp only
    rw [Nat.mod_eq_of_lt hP]
    split <;> omega

theorem iterator_new_remaining_witness :
    (boundary_invariant (build [[], ["b0", "b1"], []]) ∧
      string_tree_num_tokens (build [[], ["b0", "b1"], []]) < 2 ^ 31) ∧
    ∃ it, string_tree_iterator_new (build [[], ["b0", "b1"], []]) = some it ∧
      it.path = List.replicate (string_tree_num_tokens (build [[], ["b0", "b1"], []])) 0 ∧
      it.num_tokens = string_tree_num_tokens (build [[], ["b0", "b1"], []]) ∧
      1 ≤ it.remaining ∧
      (permutation_product (build [[], ["b0", "b1"], []]) < 2 ^ 32 →
        it.remaining = permutation_product (build [[], ["b0", "b1"], []])) :=
  ⟨⟨by decide, by decide⟩,
   iterator_new_remaining (build [[], ["b0", "b1"], []]) (by decide) (by decide)⟩

/-- C10: for every iterator state reached from creation by advances over an
unmodified store (built by building calls, its string count fitting in 32 bits
and its boundary count at most `2 ^ 31`) and every token index `i`:
`current_string(i)` is "not found" when `i ≥ num_tokens`; otherwise both array
reads are in bounds and the result is the string-table entry at index
`boundaries[i] + path[i]`, which for a token with at least one added
alternative is the `path[i]`-th alternative added for token `i`. -/
theorem current_string_spec (size : Nat) (ops : List Op) (s : string_tree_t)
    (hrun : s = run (string_tree_new_size size) ops)
    (hs : s.strings.entries.length < 2 ^ 32) (ht : s.token_indices.length ≤ 2 ^ 31)
    (k : Nat) (it : string_tree_iterator_t)
    (hit : (string_tree_iterator_new s).bind (advance_n k) = some it) (i : Nat) :
    (i ≥ it.num_tokens → string_tree_iterator_get_string it i = some none) ∧
    (i < it.num_tokens →
      ∃ b d, s.token_indices[i]? = some b ∧ it.path[i]? = some d ∧
        string_tree_iterator_get_string it i = some (s.strings.entries[b + d]?) ∧
        ∀ alts, (added ops).finalized[i]? = some alts → alts ≠ [] →
          d < alts.length ∧ string_tree_iterator_get_string it i = some (alts[d]?)) := by
  subst hrun
  have h := run_invariant size ops hs (by omega)
  have hl := (invariant_length _ h).1
  have hn : string_tree_num_tokens (run (string_tree_new_size size) ops) < 2 ^ 31 := by omega
  obtain ⟨h1, h2⟩ := run_repr size ops hs
  obtain ⟨it2, hit2, hw⟩ := advance_n_wf _ h hn k
  rw [hit] at hit2
  have hiteq := Option.some.inj hit2
  rw [← hiteq] at hw
  obtain ⟨hwt, hwn, hwf, -⟩ := hw
  constructor
  · intro hge
    unfold string_tree_iterator_get_string
    rw [if_pos hge]
  · intro hlt
    have hlt2 : i < string_tree_num_tokens (run (string_tree_new_size size) ops) := by
      rw [← hwn]; exact hlt
    obtain ⟨lo, up, e1, e2, hle, hup, e5⟩ := num_alternatives_of_invariant _ h i hlt2
    have hr := (num_alternatives_eq_radix _ h i hlt2).1
    have hRl : i < (radices (run (string_tree_new_size size) ops)).length := by
      rw [radices_length]; exact hlt2
    have hpl : i < it.path.length := by rw [hwf.length_eq]; exact hRl
    have hd := hwf.get hpl hRl
    simp only [List.get_eq_getElem] at hd
    have e6 := List.getElem?_eq_getElem hRl
    rw [← hr, e5] at e6
    rw [← Option.some.inj e6] at hd
    have hsum : lo + it.path[i] < 2 ^ 32 := by omega
    have hget : string_tree_iterator_get_string it i
        = some ((run (string_tree_new_size size) ops).strings.entries[lo + it.path[i]]?) := by
      unfold string_tree_iterator_get_string cstring_array_get_string
      rw [if_neg (by omega), hwt, e1, List.getElem?_eq_getElem hpl]
      simp only [Option.bind_eq_bind, Option.some_bind]
      rw [Nat.mod_eq_of_lt hsum]
    refine ⟨lo, it.path[i], e1, List.getElem?_eq_getElem hpl, hget, ?_⟩
    intro alts halts hne
    obtain ⟨hi, rfl⟩ := List.getElem?_eq_some.mp halts
    have hlo : lo = ((added ops).finalized.take i).flatten.length := by
      have e7 := boundaries_of_getElem? (added ops).finalized i (by omega)
      rw [← h2, e1] at e7
      exact Option.some.inj e7
    have hupv : up = lo + ((added ops).finalized[i]).length := by
      have e7 := boundaries_of_getElem? (added ops).finalized (i + 1) (by omega)
      rw [← h2, e2, flatten_take_succ_length _ i _ halts, ← hlo] at e7
      exact Option.some.inj e7
    have hlen : 0 < ((added ops).finalized[i]).length := List.length_pos.mpr hne
    have hdlt : it.path[i] < ((added ops).finalized[i]).length := by omega
    refine ⟨hdlt, ?_⟩
    have hf := flatten_getElem? (added ops).finalized i it.path[i] hi hdlt
    rw [hget, h1, hlo, List.getElem?_append_left, hf, List.getElem?_eq_getElem hdlt]
    by_contra hc
    rw [List.getElem?_eq_none (by omega)] at hf
    exact Option.noConfusion hf

theorem current_string_spec_witness :
    ((build [["a0", "a1"], ["b0", "b1"]]).strings.entries.length < 2 ^ 32 ∧
      (build [["a0", "a1"], ["b0", "b1"]]).token_indices.length ≤ 2 ^ 31 ∧
      (string_tree_iterator_new (build [["a0", "a1"], ["b0", "b1"]])).bind (advance_n 2)
        = some ⟨build [["a0", "a1"], ["b0", "b1"]], [1, 0], 2, 2⟩ ∧
      string_tree_iterator_get_string ⟨build [["a0", "a1"], ["b0", "b1"]], [1, 0], 2, 2⟩ 0
        = some (some "a1")) ∧
    ((0 ≥ (⟨build [["a0", "a1"], ["b0", "b1"]], [1, 0], 2, 2⟩ : string_tree_iterator_t).num_tokens →
      string_tree_iterator_get_string ⟨build [["a0", "a1"], ["b0", "b1"]], [1, 0], 2, 2⟩ 0
        = some none) ∧
    ((0 < (⟨build [["a0", "a1"], ["b0", "b1"]], [1, 0], 2, 2⟩ : string_tree_iterator_t).num_tokens →
      ∃ b d, (build [["a0", "a1"], ["b0", "b1"]]).token_indices[0]? = some b ∧
        (⟨build [["a0", "a1"], ["b0", "b1"]], [1, 0], 2, 2⟩ : string_tree_iterator_t).path[0]?
          = some d ∧
        string_tree_iterator_get_string ⟨build [["a0", "a1"], ["b0", "b1"]], [1, 0], 2, 2⟩ 0
          = some ((build [["a0", "a1"], ["b0", "b1"]]).strings.entries[b + d]?) ∧
        ∀ alts, (added (build_ops [["a0", "a1"], ["b0", "b1"]])).finalized[0]? = some alts →
          alts ≠ [] →
          d < alts.length ∧
            string_tree_iterator_get_string ⟨build [["a0", "a1"], ["b0", "b1"]], [1, 0], 2, 2⟩ 0
              = some (alts[d]?)))) :=
  ⟨⟨by decide, by decide, by decide, by decide⟩,
   current_string_spec DEFAULT_STRING_TREE_SIZE (build_ops [["a0", "a1"], ["b0", "b1"]])
     (build [["a0", "a1"], ["b0", "b1"]]) rfl (by decide) (by decide) 2
     ⟨build [["a0", "a1"], ["b0", "b1"]], [1, 0], 2, 2⟩ (by decide) 0⟩

/-- The enumeration of the store with alternatives `[a0, a1]` and `[b0, b1]`:
the selections at creation and after one, two and three advances, and the
exhaustion at the fourth advance. -/
theorem enumeration_example :
    (List.range 4).map (fun k =>
      ((string_tree_iterator_new (build [["a0", "a1"], ["b0", "b1"]])).bind (advance_n k)).bind
        fun it => some (string_tree_iterator_get_string it 0,
          string_tree_iterator_get_string it 1, string_tree_iterator_done it))
      = [some (some (some "a0"), some (some "b0"), false),
         some (some (some "a0"), some (some "b1"), false),
         some (some (some "a1"), some (some "b0"), false),
         some (some (some "a1"), some (some "b1"), false)] ∧
    ((string_tree_iterator_new (build [["a0", "a1"], ["b0", "b1"]])).bind (advance_n 4)).map
      string_tree_iterator_done = some true := by
  decide

/-- The enumeration of a store with no token: one combination, the iterator
is not done at creation and is done after one advance. -/
theorem empty_store_example :
    (string_tree_iterator_new string_tree_new).map
        (fun it => (it.path, it.remaining, string_tree_iterator_done it))
      = some ([], 1, false) ∧
    ((string_tree_iterator_new string_tree_new).bind (advance_n 1)).map
        (fun it => (it.path, it.remaining, string_tree_iterator_done it))
      = some ([], 0, true) := by
  decide

/-! ## Clearing and exhaustion -/

theorem clear_eq_new (s : string_tree_t) : string_tree_clear s = string_tree_new :=
  rfl

/-- C11: clear restores the initial state.  For every store, `clear()` gives
boundaries `[0]`, `num_tokens() = 0` and `num_strings() = 0`, the state of a
freshly created store (for every capacity hint), so that replaying any
sequence of building calls after `clear()` gives the same `num_tokens`,
`num_alternatives` and `get_alternative` results as replaying it on a fresh
store; and `clear()` applied twice is `clear()` applied once. -/
theorem clear_restores_initial_state (s : string_tree_t) :
    (string_tree_clear s).token_indices = [0] ∧
    string_tree_num_tokens (string_tree_clear s) = 0 ∧
    string_tree_num_strings (string_tree_clear s) = 0 ∧
    (∀ size, string_tree_clear s = string_tree_new_size size) ∧
    (∀ (ops : List Op) (i j : Nat),
      string_tree_num_tokens (run (string_tree_clear s) ops)
        = string_tree_num_tokens (run string_tree_new ops) ∧
      string_tree_num_strings (run (string_tree_clear s) ops)
        = string_tree_num_strings (run string_tree_new ops) ∧
      string_tree_num_alternatives (run (string_tree_clear s) ops) i
        = string_tree_num_alternatives (run string_tree_new ops) i ∧
      string_tree_get_alternative (run (string_tree_clear s) ops) i j
        = string_tree_get_alternative (run string_tree_new ops) i j) ∧
    string_tree_clear (string_tree_clear s) = string_tree_clear s := by
  refine ⟨rfl, ?_, ?_, fun _ => rfl, ?_, rfl⟩
  · rw [clear_eq_new]
    decide
  · rw [clear_eq_new]
    decide
  · intro ops i j
    rw [clear_eq_new]
    exact ⟨rfl, rfl, rfl, rfl⟩

/-- C12: the exhausted state is absorbing.  For every iterator with
`remaining = 0`, `advance()` returns the iterator unchanged (path,
`remaining`, `num_tokens` and the borrowed store), so after any number of
further advances the iterator is the same and `is_done()` is true. -/
theorem exhausted_absorbing (it : string_tree_iterator_t) (h : it.remaining = 0) (k : Nat) :
    string_tree_iterator_next it = some it ∧
      advance_n k it = some it ∧
      (advance_n k it).map string_tree_iterator_done = some true := by
  have h1 := iterator_next_of_done it h
  have h2 : advance_n k it = some it := by
    induction k with
    | zero => rfl
    | succ k ih => rw [advance_n, h1, Option.some_bind, ih]
  refine ⟨h1, h2, ?_⟩
  rw [h2, Option.map_some']
  unfold string_tree_iterator_done
  rw [h]
  rfl

theorem exhausted_absorbing_witness :
    (⟨build [["a0", "a1"], ["b0"]], [0, 0], 2, 0⟩ : string_tree_iterator_t).remaining = 0 ∧
    (string_tree_iterator_next ⟨build [["a0", "a1"], ["b0"]], [0, 0], 2, 0⟩
        = some ⟨build [["a0", "a1"], ["b0"]], [0, 0], 2, 0⟩ ∧
      advance_n 5 ⟨build [["a0", "a1"], ["b0"]], [0, 0], 2, 0⟩
        = some ⟨build [["a0", "a1"], ["b0"]], [0, 0], 2, 0⟩ ∧
      (advance_n 5 ⟨build [["a0", "a1"], ["b0"]], [0, 0], 2, 0⟩).map string_tree_iterator_done
        = some true) :=
  ⟨rfl, exhausted_absorbing ⟨build [["a0", "a1"], ["b0"]], [0, 0], 2, 0⟩ rfl 5⟩

/-! ## Permutation-count overflow -/

/-- C13, as stated, fails: the store with 32 tokens of two alternatives each
has true product `2 ^ 32 > 2 ^ 32 - 1`, and its new iterator has
`remaining = 1`, not `2 ^ 32 - 1`. -/
theorem remaining_not_saturated :
    ¬ (∀ s : string_tree_t, boundary_invariant s → string_tree_num_tokens s < 2 ^ 31 →
        2 ^ 32 - 1 < permutation_product s →
        (string_tree_iterator_new s).map (fun it => it.remaining) = some (2 ^ 32 - 1)) := by
  intro h
  have h0 := h overflow_store (by decide) (by decide) (by decide)
  revert h0
  decide

/-- C13, amended: iterator creation computes `remaining` as the product of
`max(1, num_alternatives(i))` over all tokens reduced modulo `2 ^ 32` (the
`uint32_t` product wraps, nothing saturates), and `1` when the wrapped value is
`0` or `1`; this for every store satisfying the boundary invariant with fewer
than `2 ^ 31` tokens, whatever the size of the true product. -/
theorem iterator_new_wraps (s : string_tree_t) (h : boundary_invariant s)
    (hn : string_tree_num_tokens s < 2 ^ 31) :
    (∀ i, i < string_tree_num_tokens s →
      string_tree_num_alternatives s i = (radices s)[i]?) ∧
    permutations_loop s (string_tree_num_tokens s) 0 1
      = some (permutation_product s % 2 ^ 32) ∧
    (string_tree_iterator_new s).map (fun it => it.remaining)
      = some (if permutation_product s % 2 ^ 32 > 1 then permutation_product s % 2 ^ 32
          else 1) := by
  refine ⟨fun i hi => (num_alternatives_eq_radix s h i hi).1, ?_, ?_⟩
  · rw [permutations_loop_spec s h _ 0 1 (by omega) (by norm_num), List.drop_zero,
      Nat.one_mul]
    rfl
  · rw [iterator_new_spec s h hn, Option.map_some']

theorem iterator_new_wraps_witness :
    (boundary_invariant (build (List.replicate 31 ["a", "b"] ++ [["a", "b", "c"]])) ∧
      string_tree_num_tokens (build (List.replicate 31 ["a", "b"] ++ [["a", "b", "c"]]))
        < 2 ^ 31 ∧
      permutation_product (build (List.replicate 31 ["a", "b"] ++ [["a", "b", "c"]]))
        = 3 * 2 ^ 31) ∧
    ((∀ i, i < string_tree_num_tokens
          (build (List.replicate 31 ["a", "b"] ++ [["a", "b", "c"]])) →
        string_tree_num_alternatives
            (build (List.replicate 31 ["a", "b"] ++ [["a", "b", "c"]])) i
          = (radices (build (List.replicate 31 ["a", "b"] ++ [["a", "b", "c"]])))[i]?) ∧
      permutations_loop (build (List.replicate 31 ["a", "b"] ++ [["a", "b", "c"]]))
          (string_tree_num_tokens (build (List.replicate 31 ["a", "b"] ++ [["a", "b", "c"]])))
          0 1
        = some (permutation_product (build (List.replicate 31 ["a", "b"] ++ [["a", "b", "c"]]))
            % 2 ^ 32) ∧
      (string_tree_iterator_new
          (build (List.replicate 31 ["a", "b"] ++ [["a", "b", "c"]]))).map
          (fun it => it.remaining)
        = some (if permutation_product
              (build (List.replicate 31 ["a", "b"] ++ [["a", "b", "c"]])) % 2 ^ 32 > 1
            then permutation_product
              (build (List.replicate 31 ["a", "b"] ++ [["a", "b", "c"]])) % 2 ^ 32
            else 1)) :=
  ⟨⟨by decide, by decide, by decide⟩,
   iterator_new_wraps (build (List.replicate 31 ["a", "b"] ++ [["a", "b", "c"]]))
     (by decide) (by decide)⟩

/-- C14: permutation-count overflow silently wraps.  The store with 32
finalized tokens of two alternatives each satisfies the boundary invariant and
has true product `2 ^ 32`; the 32-bit product computed at iterator creation is
`0`, the initial `remaining` is `1`, smaller than the number of combinations;
one advance makes `is_done()` true, and the combination that selects the
second alternative of every token is neither the path at creation nor the
path after that advance. -/
theorem overflow_wraps_silently :
    ∃ s : string_tree_t, boundary_invariant s ∧ string_tree_num_tokens s = 32 ∧
      (∀ i, i < 32 → string_tree_num_alternatives s i = some 2) ∧
      permutation_product s = 2 ^ 32 ∧
      permutations_loop s (string_tree_num_tokens s) 0 1 = some (2 ^ 32 % 2 ^ 32) ∧
      ∃ it0 it1, string_tree_iterator_new s = some it0 ∧
        it0.remaining = 1 ∧ it0.remaining < permutation_product s ∧
        string_tree_iterator_done it0 = false ∧
        string_tree_iterator_next it0 = some it1 ∧
        string_tree_iterator_done it1 = true ∧
        ∃ p, in_product s p ∧ p ≠ it0.path ∧ p ≠ it1.path := by
  have hinv : boundary_invariant overflow_store := by decide
  have hna : ∀ i, i < 32 → string_tree_num_alternatives overflow_store i = some 2 := by
    decide
  have hnew : string_tree_iterator_new overflow_store
      = some ⟨overflow_store, List.replicate 32 0, 32, 1⟩ := by decide
  have hnext : string_tree_iterator_next ⟨overflow_store, List.replicate 32 0, 32, 1⟩
      = some ⟨overflow_store, List.replicate 31 0 ++ [1], 32, 0⟩ := by decide
  refine ⟨overflow_store, hinv, by decide, hna, by decide, by decide,
    _, _, hnew, rfl, by decide, rfl, hnext, rfl, List.replicate 32 1, ?_, by decide, by decide⟩
  rw [in_product_iff _ hinv]
  have hr : radices overflow_store = List.replicate 32 2 := by decide
  rw [hr]
  decide

/-! ## The foreach-token helper -/

theorem get_string_eq_get_alternative (it : string_tree_iterator_t) (i p : Nat)
    (hi : i < it.num_tokens) (hlen : i < it.tree.token_indices.length)
    (hp : it.path[i]? = some p) :
    string_tree_iterator_get_string it i = some (string_tree_get_alternative it.tree i p) := by
  unfold string_tree_iterator_get_string
  rw [if_neg (by omega), List.getElem?_eq_getElem hlen, hp, get_alternative_eq _ _ _ hlen]
  rfl

theorem foreach_token_loop_spec (it : string_tree_iterator_t)
    (hlen : it.num_tokens < it.tree.token_indices.length)
    (hpath : it.path.length = it.num_tokens) (fuel pi : Nat)
    (hfuel : pi + fuel = it.num_tokens) :
    ∃ L, foreach_token_loop it fuel pi = some L ∧ L.length = fuel ∧
      ∀ j, j < fuel → ∃ str, L[j]? = some (pi + j, str) ∧
        string_tree_iterator_get_string it (pi + j) = some str := by
  induction fuel generalizing pi with
  | zero => exact ⟨[], rfl, rfl, fun j hj => absurd hj (Nat.not_lt_zero j)⟩
  | succ fuel ih =>
    obtain ⟨L, hL, hLlen, hLget⟩ := ih (pi + 1) (by omega)
    have hpi : pi < it.path.length := by omega
    have hp := List.getElem?_eq_getElem hpi
    refine ⟨(pi, string_tree_get_alternative it.tree pi it.path[pi]) :: L, ?_, ?_, ?_⟩
    · unfold foreach_token_loop
      rw [hp, hL]
      rfl
    · rw [List.length_cons, hLlen]
    · intro j hj
      cases j with
      | zero =>
        exact ⟨_, List.getElem?_cons_zero,
          get_string_eq_get_alternative it pi _ (by omega) (by omega) hp⟩
      | succ j =>
        obtain ⟨str, h1, h2⟩ := hLget j (by omega)
        refine ⟨str, ?_, ?_⟩
        · rw [List.getElem?_cons_succ, h1]
          congr 2
          omega
        · rw [← h2]
          congr 1
          omega

/-- C15: the foreach-token helper is a traversal over `current_string`.  For
every iterator state reached from creation by advances over a store that
satisfies the boundary invariant (fewer than `2 ^ 31` tokens), the helper
reads inside the arrays and yields exactly `num_tokens` values, for the tokens
`0, 1, ...` in this order, and the value for token `i`, computed as
`get_alternative(store, i, path[i])`, is `current_string(i)`. -/
theorem foreach_token_traversal (s : string_tree_t) (h : boundary_invariant s)
    (hn : string_tree_num_tokens s < 2 ^ 31) (k : Nat) (it : string_tree_iterator_t)
    (hit : (string_tree_iterator_new s).bind (advance_n k) = some it) :
    ∃ L, string_tree_iterator_foreach_token it = some L ∧ L.length = it.num_tokens ∧
      ∀ i, i < it.num_tokens →
        ∃ p str, it.path[i]? = some p ∧ str = string_tree_get_alternative it.tree i p ∧
          L[i]? = some (i, str) ∧ string_tree_iterator_get_string it i = some str := by
  obtain ⟨it2, hit2, hw⟩ := advance_n_wf s h hn k
  rw [hit] at hit2
  rw [← Option.some.inj hit2] at hw
  obtain ⟨hwt, hwn, hwf, -⟩ := hw
  have hl := (invariant_length s h).1
  have hpath : it.path.length = it.num_tokens := by
    rw [hwf.length_eq, radices_length, hwn]
  have hlen : it.num_tokens < it.tree.token_indices.length := by
    rw [hwt, hwn, hl]
    omega
  obtain ⟨L, hL, hLlen, hLget⟩ := foreach_token_loop_spec it hlen hpath it.num_tokens 0 (by omega)
  refine ⟨L, ?_, hLlen, ?_⟩
  · unfold string_tree_iterator_foreach_token
    rw [if_neg (by omega), hL]
  · intro i hi
    obtain ⟨str, h1, h2⟩ := hLget i hi
    rw [Nat.zero_add] at h1 h2
    have hp := List.getElem?_eq_getElem (show i < it.path.length by omega)
    have h3 := get_string_eq_get_alternative it i _ hi (by omega) hp
    rw [h2] at h3
    exact ⟨_, str, hp, Option.some.inj h3, h1, h2⟩

theorem foreach_token_traversal_witness :
    (boundary_invariant (build [["a0", "a1"], [], ["c0", "c1"]]) ∧
      string_tree_num_tokens (build [["a0", "a1"], [], ["c0", "c1"]]) < 2 ^ 31 ∧
      (string_tree_iterator_new (build [["a0", "a1"], [], ["c0", "c1"]])).bind (advance_n 3)
        = some ⟨build [["a0", "a1"], [], ["c0", "c1"]], [1, 0, 1], 3, 1⟩ ∧
      string_tree_iterator_foreach_token ⟨build [["a0", "a1"], [], ["c0", "c1"]], [1, 0, 1], 3, 1⟩
        = some [(0, some "a1"), (1, some "c0"), (2, some "c1")]) ∧
    ∃ L, string_tree_iterator_foreach_token
          ⟨build [["a0", "a1"], [], ["c0", "c1"]], [1, 0, 1], 3, 1⟩ = some L ∧
      L.length = (⟨build [["a0", "a1"], [], ["c0", "c1"]], [1, 0, 1], 3, 1⟩ :
        string_tree_iterator_t).num_tokens ∧
      ∀ i, i < (⟨build [["a0", "a1"], [], ["c0", "c1"]], [1, 0, 1], 3, 1⟩ :
          string_tree_iterator_t).num_tokens →
        ∃ p str,
          (⟨build [["a0", "a1"], [], ["c0", "c1"]], [1, 0, 1], 3, 1⟩ :
            string_tree_iterator_t).path[i]? = some p ∧
          str = string_tree_get_alternative
            (⟨build [["a0", "a1"], [], ["c0", "c1"]], [1, 0, 1], 3, 1⟩ :
              string_tree_iterator_t).tree i p ∧
          L[i]? = some (i, str) ∧
          string_tree_iterator_get_string
            ⟨build [["a0", "a1"], [], ["c0", "c1"]], [1, 0, 1], 3, 1⟩ i = some str :=
  ⟨⟨by decide, by decide, by decide, by decide⟩,
   foreach_token_traversal (build [["a0", "a1"], [], ["c0", "c1"]]) (by decide) (by decide) 3
     ⟨build [["a0", "a1"], [], ["c0", "c1"]], [1, 0, 1], 3, 1⟩ (by decide)⟩

/-! ## Frame of the building calls -/

theorem get_alternative_eq_bind (s : string_tree_t) (t j : Nat) :
    string_tree_get_alternative s t j
      = (s.token_indices[t]?).bind fun b => s.strings.entries[(b + j) % 2 ^ 32]? := by
  by_cases ht : t < s.token_indices.length
  · rw [get_alternative_eq s t j ht, List.getElem?_eq_getElem ht, Option.some_bind]
  · unfold string_tree_get_alternative
    rw [dif_pos (by omega), List.getElem?_eq_none (by omega), Option.none_bind]

theorem num_alternatives_congr (s s2 : string_tree_t) (t : Nat)
    (hlen : t ≥ s2.token_indices.length ↔ t ≥ s.token_indices.length)
    (h1 : s2.token_indices[(t + 1) % 2 ^ 32]? = s.token_indices[(t + 1) % 2 ^ 32]?)
    (h2 : s2.token_indices[t]? = s.token_indices[t]?) :
    string_tree_num_alternatives s2 t = string_tree_num_alternatives s t := by
  unfold string_tree_num_alternatives
  rw [h1, h2]
  by_cases hc : t ≥ s.token_indices.length
  · rw [if_pos hc, if_pos (hlen.mpr hc)]
  · rw [if_neg hc, if_neg (fun hx => hc (hlen.mp hx))]

/-- C16: finalized tokens are immutable under further building.  For every
store reached by building calls (room for one more string below `2 ^ 32`, at
most `2 ^ 32` boundaries), every finalized token `t` with boundaries
`lo = boundaries[t]`, `up = boundaries[t + 1]` and every `j < up - lo`:
`add_alternative` (either variant) and `finalize_current_token` leave
`num_alternatives(t)` and `get_alternative(t, j)` (a string of the table)
unchanged; `add_alternative` moreover leaves the boundaries and `num_tokens()`
unchanged and increases `num_strings()` by exactly 1. -/
theorem finalized_tokens_immutable (size : Nat) (ops : List Op) (s : string_tree_t)
    (hrun : s = run (string_tree_new_size size) ops)
    (hs : s.strings.entries.length + 1 < 2 ^ 32) (ht : s.token_indices.length ≤ 2 ^ 32)
    (t j lo up : Nat) (hlo : s.token_indices[t]? = some lo)
    (hup : s.token_indices[t + 1]? = some up) (hj : j < up - lo)
    (str : String) (len : Nat) :
    (∃ str0, string_tree_get_alternative s t j = some str0) ∧
    (∀ s2, s2 = string_tree_add_string s str ∨ s2 = string_tree_add_string_len s str len ∨
        s2 = string_tree_finalize_token s →
      string_tree_num_alternatives s2 t = string_tree_num_alternatives s t ∧
      string_tree_get_alternative s2 t j = string_tree_get_alternative s t j) ∧
    (∀ s2, s2 = string_tree_add_string s str ∨ s2 = string_tree_add_string_len s str len →
      s2.token_indices = s.token_indices ∧
      string_tree_num_tokens s2 = string_tree_num_tokens s ∧
      string_tree_num_strings s2 = string_tree_num_strings s + 1) := by
  have h : boundary_invariant s := by
    rw [hrun] at hs ht ⊢
    exact run_invariant size ops (by omega) ht
  have hupmem : up ∈ s.token_indices := List.getElem?_mem hup
  have hle : up ≤ s.strings.entries.length := by
    have h3 := h.2.2.1 up hupmem
    unfold string_tree_num_strings cstring_array_num_strings at h3
    have := Nat.mod_le s.strings.entries.length (2 ^ 32)
    omega
  have hidx : (lo + j) % 2 ^ 32 = lo + j := Nat.mod_eq_of_lt (by omega)
  have ht1 : t + 1 < s.token_indices.length := (List.getElem?_eq_some.mp hup).1
  have hmod : (t + 1) % 2 ^ 32 = t + 1 := Nat.mod_eq_of_lt (by omega)
  have hget : string_tree_get_alternative s t j = s.strings.entries[lo + j]? := by
    rw [get_alternative_eq_bind, hlo, Option.some_bind, hidx]
  have key : ∀ s2 : string_tree_t, s2.token_indices = s.token_indices →
      (∃ x, s2.strings.entries = s.strings.entries ++ [x]) →
      string_tree_num_alternatives s2 t = string_tree_num_alternatives s t ∧
      string_tree_get_alternative s2 t j = string_tree_get_alternative s t j ∧
      string_tree_num_tokens s2 = string_tree_num_tokens s ∧
      string_tree_num_strings s2 = string_tree_num_strings s + 1 := by
    intro s2 hti hen
    obtain ⟨x, hx⟩ := hen
    refine ⟨num_alternatives_congr s s2 t (by rw [hti]) (by rw [hti]) (by rw [hti]), ?_, ?_, ?_⟩
    · rw [hget, get_alternative_eq_bind, hti, hlo, Option.some_bind, hidx, hx,
        List.getElem?_append_left (by omega)]
    · unfold string_tree_num_tokens
      rw [hti]
    · unfold string_tree_num_strings cstring_array_num_strings
      rw [hx, List.length_append, List.length_singleton]
      omega
  have kadd := key (string_tree_add_string s str) rfl ⟨str, rfl⟩
  have kadd_len := key (string_tree_add_string_len s str len) rfl ⟨_, rfl⟩
  have kfin : string_tree_num_alternatives (string_tree_finalize_token s) t
        = string_tree_num_alternatives s t ∧
      string_tree_get_alternative (string_tree_finalize_token s) t j
        = string_tree_get_alternative s t j := by
    have hti : (string_tree_finalize_token s).token_indices
        = s.token_indices ++ [cstring_array_num_strings s.strings % 2 ^ 32] := rfl
    have hen : (string_tree_finalize_token s).strings = s.strings := rfl
    constructor
    · apply num_alternatives_congr
      · rw [hti, List.length_append, List.length_singleton]
        omega
      · rw [hti, hmod, List.getElem?_append_left ht1]
      · rw [hti, List.getElem?_append_left (by omega)]
    · rw [get_alternative_eq_bind, get_alternative_eq_bind, hti,
        List.getElem?_append_left (by omega), hen]
  refine ⟨?_, ?_, ?_⟩
  · rw [hget]
    exact ⟨_, List.getElem?_eq_getElem (by omega)⟩
  · intro s2 hs2
    rcases hs2 with e | e | e
    · rw [e]; exact ⟨kadd.1, kadd.2.1⟩
    · rw [e]; exact ⟨kadd_len.1, kadd_len.2.1⟩
    · rw [e]; exact kfin
  · intro s2 hs2
    rcases hs2 with e | e
    · rw [e]; exact ⟨rfl, kadd.2.2⟩
    · rw [e]; exact ⟨rfl, kadd_len.2.2⟩

theorem finalized_tokens_immutable_witness :
    ((run (string_tree_new_size 8)
        [Op.add "a", Op.add "b", Op.finalize, Op.add "c"]).strings.entries.length + 1 < 2 ^ 32 ∧
      (run (string_tree_new_size 8)
        [Op.add "a", Op.add "b", Op.finalize, Op.add "c"]).token_indices.length ≤ 2 ^ 32 ∧
      (run (string_tree_new_size 8)
        [Op.add "a", Op.add "b", Op.finalize, Op.add "c"]).token_indices[0]? = some 0 ∧
      (run (string_tree_new_size 8)
        [Op.add "a", Op.add "b", Op.finalize, Op.add "c"]).token_indices[0 + 1]? = some 2 ∧
      1 < 2 - 0) ∧
    ∃ str0, string_tree_get_alternative (run (string_tree_new_size 8)
        [Op.add "a", Op.add "b", Op.finalize, Op.add "c"]) 0 1 = some str0 :=
  ⟨⟨by decide, by decide, by decide, by decide, by decide⟩,
   (finalized_tokens_immutable 8 [Op.add "a", Op.add "b", Op.finalize, Op.add "c"] _ rfl
     (by decide) (by decide) 0 1 0 2 (by decide) (by decide) (by decide) "d" 1).1⟩

/-! ## Path invariant and exhaustion -/

theorem wf_of_reachable (s : string_tree_t) (h : boundary_invariant s)
    (hn : string_tree_num_tokens s < 2 ^ 31) (k : Nat) (it : string_tree_iterator_t)
    (hit : (string_tree_iterator_new s).bind (advance_n k) = some it) : iterator_wf s it := by
  obtain ⟨it2, hit2, hw⟩ := advance_n_wf s h hn k
  rw [hit] at hit2
  rw [← Option.some.inj hit2] at hw
  exact hw

/-- C17: path invariant.  For every store satisfying the boundary invariant
(fewer than `2 ^ 31` tokens; the permutation count may have overflowed) and
every number `k` of advances from creation: all `k` advances read and write
inside `path` and the boundary array (the calls return), the iterator reached
has one selector per token with `path[i] < num_alternatives(i)` for every
`i < num_tokens`, and one more advance again stays inside the arrays. -/
theorem path_invariant (s : string_tree_t) (h : boundary_invariant s)
    (hn : string_tree_num_tokens s < 2 ^ 31) (k : Nat) :
    ∃ it it2, (string_tree_iterator_new s).bind (advance_n k) = some it ∧
      it.tree = s ∧ it.num_tokens = string_tree_num_tokens s ∧
      it.path.length = it.num_tokens ∧
      (∀ i, i < it.num_tokens →
        ∃ d n, it.path[i]? = some d ∧ string_tree_num_alternatives s i = some n ∧ d < n) ∧
      string_tree_iterator_next it = some it2 := by
  obtain ⟨it, hit, hw⟩ := advance_n_wf s h hn k
  obtain ⟨it2, hit2, -, -⟩ := iterator_next_wf s h hn it hw
  obtain ⟨hwt, hwn, hwf, -⟩ := hw
  have hprod := (in_product_iff s h it.path).mpr hwf
  refine ⟨it, it2, hit, hwt, hwn, by rw [hprod.1, hwn], ?_, hit2⟩
  intro i hi
  have hlt : i < it.path.length := by rw [hprod.1, ← hwn]; exact hi
  obtain ⟨n, h1, h2⟩ := hprod.2 i _ (List.getElem?_eq_getElem hlt)
  exact ⟨_, n, List.getElem?_eq_getElem hlt, h1, h2⟩

theorem path_invariant_witness :
    (boundary_invariant overflow_store ∧ string_tree_num_tokens overflow_store < 2 ^ 31) ∧
    ∃ it it2, (string_tree_iterator_new overflow_store).bind (advance_n 3) = some it ∧
      it.tree = overflow_store ∧ it.num_tokens = string_tree_num_tokens overflow_store ∧
      it.path.length = it.num_tokens ∧
      (∀ i, i < it.num_tokens →
        ∃ d n, it.path[i]? = some d ∧
          string_tree_num_alternatives overflow_store i = some n ∧ d < n) ∧
      string_tree_iterator_next it = some it2 :=
  ⟨⟨by decide, by decide⟩, path_invariant overflow_store (by decide) (by decide) 3⟩

theorem advance_exhausts (s : string_tree_t) (h : boundary_invariant s)
    (hn : string_tree_num_tokens s < 2 ^ 31) (m : Nat) :
    ∀ it, iterator_wf s it → it.remaining ≤ m →
      ∃ k, k ≤ it.remaining ∧ ∃ it2, advance_n k it = some it2 ∧ it2.remaining = 0 := by
  induction m with
  | zero =>
    intro it _ hm
    exact ⟨0, Nat.zero_le _, it, rfl, by omega⟩
  | succ m ih =>
    intro it hw hm
    by_cases h0 : it.remaining = 0
    · exact ⟨0, Nat.zero_le _, it, rfl, h0⟩
    · obtain ⟨it2, hit2, hw2, -, hlt, -⟩ := iterator_next_wf s h hn it hw
      have hlt2 := hlt (by omega)
      obtain ⟨k, hk, it3, hit3, hz⟩ := ih it2 hw2 (by omega)
      refine ⟨k + 1, by omega, it3, ?_, hz⟩
      rw [advance_n, hit2, Option.some_bind, hit3]

/-- C18: guaranteed exhaustion.  For every store satisfying the boundary
invariant (fewer than `2 ^ 31` tokens, the permutation count overflowed or
not) and every iterator reached from creation with `remaining > 0`, one
advance strictly decreases `remaining`: to `0` when the carry propagates past
the first token (the path is then all zeros), by exactly 1 otherwise.  Hence
from creation `is_done()` is reached after at most the initial `remaining`
advances. -/
theorem guaranteed_exhaustion (s : string_tree_t) (h : boundary_invariant s)
    (hn : string_tree_num_tokens s < 2 ^ 31) :
    (∀ j it, (string_tree_iterator_new s).bind (advance_n j) = some it → 0 < it.remaining →
      ∃ it2, string_tree_iterator_next it = some it2 ∧ it2.remaining < it.remaining ∧
        ((it2.path = List.replicate it.num_tokens 0 ∧ it2.remaining = 0) ∨
          (it2.path ≠ List.replicate it.num_tokens 0 ∧
            it2.remaining = it.remaining - 1))) ∧
    ∃ it0, string_tree_iterator_new s = some it0 ∧
      ∃ k, k ≤ it0.remaining ∧
        ∃ it, advance_n k it0 = some it ∧ string_tree_iterator_done it = true := by
  constructor
  · intro j it hit hpos
    have hw := wf_of_reachable s h hn j it hit
    obtain ⟨it2, hit2, -, -, hlt, hstep⟩ := iterator_next_wf s h hn it hw
    exact ⟨it2, hit2, hlt hpos, hstep hpos⟩
  · obtain ⟨it0, hit0, hw0⟩ := advance_n_wf s h hn 0
    have hnew : string_tree_iterator_new s = some it0 := by
      cases hx : string_tree_iterator_new s with
      | none => rw [hx] at hit0; exact Option.noConfusion hit0
      | some x =>
        rw [hx, Option.some_bind] at hit0
        rw [← Option.some.inj hit0]
    obtain ⟨k, hk, it, hit, hz⟩ := advance_exhausts s h hn it0.remaining it0 hw0 (Nat.le_refl _)
    refine ⟨it0, hnew, k, hk, it, hit, ?_⟩
    unfold string_tree_iterator_done
    rw [hz]
    rfl

theorem guaranteed_exhaustion_witness :
    (boundary_invariant (build [["a0", "a1"], ["b0", "b1", "b2"]]) ∧
      string_tree_num_tokens (build [["a0", "a1"], ["b0", "b1", "b2"]]) < 2 ^ 31) ∧
    ∃ it0, string_tree_iterator_new (build [["a0", "a1"], ["b0", "b1", "b2"]]) = some it0 ∧
      ∃ k, k ≤ it0.remaining ∧
        ∃ it, advance_n k it0 = some it ∧ string_tree_iterator_done it = true :=
  ⟨⟨by decide, by decide⟩,
   (guaranteed_exhaustion (build [["a0", "a1"], ["b0", "b1", "b2"]]) (by decide)
     (by decide)).2⟩

/-! ## Tokens without alternatives -/

theorem flatten_drop_head? (M : List (List String)) (alts : List String) (d : Nat) :
    ∀ n u, u = n + d → M[u]? = some alts → alts ≠ [] →
      (∀ v, n ≤ v → v < u → M[v]? = some []) →
      (M.drop n).flatten.head? = alts.head? := by
  induction d with
  | zero =>
    intro n u hu hM hne _
    rw [Nat.add_zero] at hu
    rw [hu] at hM
    obtain ⟨hlt, rfl⟩ := List.getElem?_eq_some.mp hM
    rw [List.drop_eq_getElem_cons hlt, List.flatten_cons, List.head?_append_of_ne_nil _ hne]
  | succ d ih =>
    intro n u hu hM hne hbetween
    have hn := hbetween n (Nat.le_refl _) (by omega)
    obtain ⟨hlt, hnil⟩ := List.getElem?_eq_some.mp hn
    rw [List.drop_eq_getElem_cons hlt, hnil, List.flatten_cons, List.nil_append]
    exact ih (n + 1) u (by omega) hM hne (fun v hv1 hv2 => hbetween v (by omega) hv2)

/-- C19: empty-token read-through.  For every store reached by building calls
(string count below `2 ^ 32`, at most `2 ^ 31` boundaries), every finalized
token `t` with `boundaries[t] = boundaries[t + 1] = b` and every iterator
state reached from creation by advances: no alternative was added for `t`,
the selector `path[t]` is `0`, and `current_string(t)`, like
`get_alternative(t, 0)`, is the table entry at index `b`.  That entry is the
first string added after token `t`: the first alternative of the next token
(finalized or being built) that has any added string, and "not found" exactly
when no string was added after token `t`. -/
theorem empty_token_read_through (size : Nat) (ops : List Op) (s : string_tree_t)
    (hrun : s = run (string_tree_new_size size) ops)
    (hs : s.strings.entries.length < 2 ^ 32) (ht : s.token_indices.length ≤ 2 ^ 31)
    (t b : Nat) (hlo : s.token_indices[t]? = some b) (hup : s.token_indices[t + 1]? = some b)
    (k : Nat) (it : string_tree_iterator_t)
    (hit : (string_tree_iterator_new s).bind (advance_n k) = some it) :
    (added ops).finalized[t]? = some [] ∧
    it.path[t]? = some 0 ∧
    string_tree_iterator_get_string it t = some (s.strings.entries[b]?) ∧
    string_tree_get_alternative s t 0 = s.strings.entries[b]? ∧
    s.strings.entries[b]? = (added_after (added ops) t).head? ∧
    (∀ u alts, t < u →
      ((added ops).finalized ++ [(added ops).current])[u]? = some alts → alts ≠ [] →
      (∀ v, t < v → v < u → ((added ops).finalized ++ [(added ops).current])[v]? = some []) →
      s.strings.entries[b]? = alts.head?) ∧
    (s.strings.entries[b]? = none ↔ added_after (added ops) t = []) := by
  have h : boundary_invariant s := by
    rw [hrun] at hs ht ⊢
    exact run_invariant size ops hs (by omega)
  have hl := (invariant_length s h).1
  have hn : string_tree_num_tokens s < 2 ^ 31 := by omega
  have hrepr : s.strings.entries = (added ops).finalized.flatten ++ (added ops).current ∧
      s.token_indices = boundaries_of (added ops).finalized := by
    rw [hrun] at hs ⊢
    exact run_repr size ops hs
  obtain ⟨h1, h2⟩ := hrepr
  have ht1 : t + 1 < s.token_indices.length := (List.getElem?_eq_some.mp hup).1
  have htfin : t < (added ops).finalized.length := by
    rw [h2, boundaries_of_length] at ht1
    omega
  have htok : t < string_tree_num_tokens s := by omega
  have hfin := List.getElem?_eq_getElem htfin
  have hb1 : b = ((added ops).finalized.take t).flatten.length := by
    have e := boundaries_of_getElem? (added ops).finalized t (by omega)
    rw [← h2, hlo] at e
    exact Option.some.inj e
  have hb2 : b = ((added ops).finalized.take (t + 1)).flatten.length := by
    have e := boundaries_of_getElem? (added ops).finalized (t + 1) (by omega)
    rw [← h2, hup] at e
    exact Option.some.inj e
  have hempty : (added ops).finalized[t]? = some [] := by
    obtain ⟨alts0, halts⟩ : ∃ a, (added ops).finalized[t]? = some a := ⟨_, hfin⟩
    have e := flatten_take_succ_length (added ops).finalized t alts0 halts
    rw [← hb1, ← hb2] at e
    have hnil : alts0 = [] := List.length_eq_zero.mp (by omega)
    rw [halts, hnil]
  have hw := wf_of_reachable s h hn k it hit
  obtain ⟨hwt, hwn, hwf, -⟩ := hw
  have hblt : b < 2 ^ 32 := invariant_lt s h t b hlo
  have hpath : it.path[t]? = some 0 := by
    obtain ⟨lo, up, e1, e2, -, -, e5⟩ := num_alternatives_of_invariant s h t htok
    rw [hlo] at e1
    rw [hup] at e2
    rw [← Option.some.inj e1, ← Option.some.inj e2, Nat.sub_self] at e5
    have hRl : t < (radices s).length := by rw [radices_length]; exact htok
    have hpl : t < it.path.length := by rw [hwf.length_eq]; exact hRl
    have hd := hwf.get hpl hRl
    simp only [List.get_eq_getElem] at hd
    have e6 := List.getElem?_eq_getElem hRl
    rw [← (num_alternatives_eq_radix s h t htok).1, e5] at e6
    rw [← Option.some.inj e6] at hd
    have hpd := List.getElem?_eq_getElem hpl
    generalize it.path[t] = d at hd hpd
    have hmax : max 1 0 = 1 := rfl
    have hd0 : d = 0 := by omega
    rw [hpd, hd0]
  have hcur : string_tree_iterator_get_string it t = some (s.strings.entries[b]?) := by
    unfold string_tree_iterator_get_string cstring_array_get_string
    rw [if_neg (by omega), hwt, hlo, hpath]
    simp only [Option.bind_eq_bind, Option.some_bind, Nat.add_zero]
    rw [Nat.mod_eq_of_lt hblt]
  have hgetalt : string_tree_get_alternative s t 0 = s.strings.entries[b]? := by
    rw [get_alternative_eq_bind, hlo, Option.some_bind, Nat.add_zero, Nat.mod_eq_of_lt hblt]
  have hsplit : s.strings.entries
      = ((added ops).finalized.take (t + 1)).flatten ++ added_after (added ops) t := by
    unfold added_after
    rw [h1, ← List.append_assoc, ← List.flatten_append, List.take_append_drop]
  have hentry : s.strings.entries[b]? = (added_after (added ops) t).head? := by
    rw [hsplit, List.getElem?_append_right (by omega), ← hb2, Nat.sub_self,
      List.head?_eq_getElem?]
  refine ⟨hempty, hpath, hcur, hgetalt, hentry, ?_, ?_⟩
  · intro u alts htu hu hne hbetween
    have hdrop : added_after (added ops) t
        = (((added ops).finalized ++ [(added ops).current]).drop (t + 1)).flatten := by
      unfold added_after
      rw [List.drop_append_of_le_length (by omega), List.flatten_append]
      simp
    rw [hentry, hdrop]
    exact flatten_drop_head? _ alts (u - (t + 1)) (t + 1) u (by omega) hu hne
      (fun v hv1 hv2 => hbetween v (by omega) hv2)
  · rw [hentry, List.head?_eq_none_iff]

theorem empty_token_read_through_witness :
    ((build [["a"], [], [], ["c", "d"]]).strings.entries.length < 2 ^ 32 ∧
      (build [["a"], [], [], ["c", "d"]]).token_indices.length ≤ 2 ^ 31 ∧
      (build [["a"], [], [], ["c", "d"]]).token_indices[1]? = some 1 ∧
      (build [["a"], [], [], ["c", "d"]]).token_indices[1 + 1]? = some 1 ∧
      (string_tree_iterator_new (build [["a"], [], [], ["c", "d"]])).bind (advance_n 1)
        = some ⟨build [["a"], [], [], ["c", "d"]], [0, 0, 0, 1], 4, 1⟩ ∧
      string_tree_iterator_get_string ⟨build [["a"], [], [], ["c", "d"]], [0, 0, 0, 1], 4, 1⟩ 1
        = some (some "c")) ∧
    ((added (build_ops [["a"], [], [], ["c", "d"]])).finalized[1]? = some [] ∧
    (⟨build [["a"], [], [], ["c", "d"]], [0, 0, 0, 1], 4, 1⟩ : string_tree_iterator_t).path[1]?
      = some 0 ∧
    string_tree_iterator_get_string ⟨build [["a"], [], [], ["c", "d"]], [0, 0, 0, 1], 4, 1⟩ 1
      = some ((build [["a"], [], [], ["c", "d"]]).strings.entries[1]?) ∧
    string_tree_get_alternative (build [["a"], [], [], ["c", "d"]]) 1 0
      = (build [["a"], [], [], ["c", "d"]]).strings.entries[1]? ∧
    (build [["a"], [], [], ["c", "d"]]).strings.entries[1]?
      = (added_after (added (build_ops [["a"], [], [], ["c", "d"]])) 1).head? ∧
    (∀ u alts, 1 < u →
      ((added (build_ops [["a"], [], [], ["c", "d"]])).finalized
        ++ [(added (build_ops [["a"], [], [], ["c", "d"]])).current])[u]? = some alts →
      alts ≠ [] →
      (∀ v, 1 < v → v < u →
        ((added (build_ops [["a"], [], [], ["c", "d"]])).finalized
          ++ [(added (build_ops [["a"], [], [], ["c", "d"]])).current])[v]? = some []) →
      (build [["a"], [], [], ["c", "d"]]).strings.entries[1]? = alts.head?) ∧
    ((build [["a"], [], [], ["c", "d"]]).strings.entries[1]? = none ↔
      added_after (added (build_ops [["a"], [], [], ["c", "d"]])) 1 = [])) :=
  ⟨⟨by decide, by decide, by decide, by decide, by decide, by decide⟩,
   empty_token_read_through DEFAULT_STRING_TREE_SIZE (build_ops [["a"], [], [], ["c", "d"]])
     (build [["a"], [], [], ["c", "d"]]) rfl (by decide) (by decide) 1 1 (by decide) (by decide)
     1 ⟨build [["a"], [], [], ["c", "d"]], [0, 0, 0, 1], 4, 1⟩ (by decide)⟩

/-! ## Exhaustion without overflow -/

theorem digits_lsf_prod (Rl : List Nat) (hpos : ∀ r ∈ Rl, 0 < r) :
    digits_lsf Rl Rl.prod = List.replicate Rl.length 0 := by
  induction Rl with
  | nil => rfl
  | cons r rs ih =>
    have hr : 0 < r := hpos r (List.mem_cons_self _ _)
    rw [List.prod_cons, digits_lsf, Nat.mul_mod_right, Nat.mul_div_cancel_left _ hr,
      ih (fun x hx => hpos x (List.mem_cons_of_mem _ hx)), List.length_cons,
      List.replicate_succ]

theorem odometer_state_tree (s : string_tree_t) (k : Nat) : (odometer_state s k).tree = s := by
  simp only [odometer_state]

theorem odometer_state_num_tokens (s : string_tree_t) (k : Nat) :
    (odometer_state s k).num_tokens = string_tree_num_tokens s := by
  simp only [odometer_state]

theorem odometer_state_path_zero (s : string_tree_t) :
    (odometer_state s 0).path = List.replicate (string_tree_num_tokens s) 0 := by
  rw [odometer_state_path, digits_lsf_zero, List.reverse_replicate, List.length_reverse,
    radices_length]

theorem odometer_state_path_prod (s : string_tree_t) :
    (odometer_state s (permutation_product s)).path
      = List.replicate (string_tree_num_tokens s) 0 := by
  have hpos : ∀ r ∈ (radices s).reverse, 0 < r := by
    intro r hr
    exact radices_pos s r (List.mem_reverse.mp hr)
  have hprod : permutation_product s = (radices s).reverse.prod := by
    rw [List.prod_reverse]
    rfl
  rw [odometer_state_path]
  conv_lhs => rw [hprod]
  rw [digits_lsf_prod _ hpos, List.reverse_replicate, List.length_reverse, radices_length]

theorem next_loop_spec_pair (tree : string_tree_t) (fr Rl : List Nat)
    (hb : List.Forall₂ (· < ·) fr Rl) (hr : ∀ r ∈ Rl, r < 2 ^ 32)
    (hna : ∀ m, m < Rl.length →
      string_tree_num_alternatives tree (Rl.length - 1 - m) = Rl[m]?)
    (rem : Nat) (A : List Nat) (c : Bool) (hinc : incr_lsf Rl fr = (A, c)) :
    next_loop tree fr.length fr.reverse rem
      = some (A.reverse, (if c = true then rem else (rem + 2 ^ 32 - 1) % 2 ^ 32), c) := by
  have hloop := next_loop_spec_all tree fr Rl hb hr hna rem
  rw [hinc] at hloop
  exact hloop

/-- C20: for every store satisfying the boundary invariant with fewer than
`2 ^ 31` tokens and permutation product `P < 2 ^ 32`: after fewer than `P`
advances `remaining` is still positive; at the `P`-th advance `remaining` is
`1`, the odometer loop runs to `i < 0` (carry past the first token) without
taking the decrement branch and leaves every selector `0`; `remaining` then
becomes `0`, the path is the path of creation, and `current_string(i)` is the
same as at creation for every `i`. -/
theorem exhaustion_by_carry (s : string_tree_t) (h : boundary_invariant s)
    (hn : string_tree_num_tokens s < 2 ^ 31) (hP : permutation_product s < 2 ^ 32) :
    ∃ it0 itl itP, string_tree_iterator_new s = some it0 ∧
      (∀ k, k < permutation_product s →
        ∃ it, advance_n k it0 = some it ∧ 0 < it.remaining) ∧
      advance_n (permutation_product s - 1) it0 = some itl ∧ itl.remaining = 1 ∧
      next_loop s (string_tree_num_tokens s) itl.path itl.remaining
        = some (List.replicate (string_tree_num_tokens s) 0, itl.remaining, true) ∧
      string_tree_iterator_next itl = some itP ∧
      advance_n (permutation_product s) it0 = some itP ∧
      itP.remaining = 0 ∧
      itP.path = List.replicate (string_tree_num_tokens s) 0 ∧ itP.path = it0.path ∧
      ∀ i, string_tree_iterator_get_string itP i = string_tree_iterator_get_string it0 i := by
  have hpos := permutation_product_pos s
  have hnew := iterator_new_odometer s h hn hP
  have hadv : ∀ k, k ≤ permutation_product s →
      advance_n k (odometer_state s 0) = some (odometer_state s k) := by
    intro k hk
    have e := advance_n_odometer s h hn hP k hk
    rw [hnew, Option.some_bind] at e
    exact e
  have hRpos : ∀ r ∈ (radices s).reverse, 0 < r := by
    intro r hr
    exact radices_pos s r (List.mem_reverse.mp hr)
  have hRlt : ∀ r ∈ (radices s).reverse, r < 2 ^ 32 := by
    intro r hr
    exact radices_lt s h r (List.mem_reverse.mp hr)
  have hRl : (radices s).reverse.length = string_tree_num_tokens s := by
    rw [List.length_reverse, radices_length]
  have hprod : (radices s).reverse.prod = permutation_product s := by
    rw [List.prod_reverse]
    rfl
  have hsucc : permutation_product s - 1 + 1 = permutation_product s := by omega
  have hnext := iterator_next_odometer s h hn hP (permutation_product s - 1) (by omega)
  rw [hsucc] at hnext
  have hloop := next_loop_spec_pair s _ _
    (digits_lsf_bounded _ hRpos (permutation_product s - 1)) hRlt
    (num_alternatives_reverse s h) (odometer_state s (permutation_product s - 1)).remaining
    _ _ (incr_digits_lsf (radices s).reverse hRpos (permutation_product s - 1))
  rw [hsucc, hprod, decide_eq_true (dvd_refl (permutation_product s)), if_pos rfl,
    digits_lsf_length, hRl, ← odometer_state_path s, ← odometer_state_path s,
    odometer_state_path_prod] at hloop
  refine ⟨_, _, _, hnew, ?_, hadv _ (by omega), ?_, hloop, hnext, hadv _ (Nat.le_refl _), ?_,
    odometer_state_path_prod s, ?_, ?_⟩
  · intro k hk
    refine ⟨_, hadv k (by omega), ?_⟩
    rw [odometer_state_remaining]
    omega
  · rw [odometer_state_remaining]
    omega
  · rw [odometer_state_remaining]
    omega
  · rw [odometer_state_path_prod, odometer_state_path_zero]
  · intro i
    unfold string_tree_iterator_get_string
    rw [odometer_state_num_tokens, odometer_state_num_tokens, odometer_state_tree,
      odometer_state_tree, odometer_state_path_prod, odometer_state_path_zero]

theorem exhaustion_by_carry_witness :
    (boundary_invariant (build [["a0", "a1"], [], ["c0", "c1", "c2"]]) ∧
      string_tree_num_tokens (build [["a0", "a1"], [], ["c0", "c1", "c2"]]) < 2 ^ 31 ∧
      permutation_product (build [["a0", "a1"], [], ["c0", "c1", "c2"]]) < 2 ^ 32) ∧
    ∃ it0 itl itP,
      string_tree_iterator_new (build [["a0", "a1"], [], ["c0", "c1", "c2"]]) = some it0 ∧
      (∀ k, k < permutation_product (build [["a0", "a1"], [], ["c0", "c1", "c2"]]) →
        ∃ it, advance_n k it0 = some it ∧ 0 < it.remaining) ∧
      advance_n (permutation_product (build [["a0", "a1"], [], ["c0", "c1", "c2"]]) - 1) it0
        = some itl ∧ itl.remaining = 1 ∧
      next_loop (build [["a0", "a1"], [], ["c0", "c1", "c2"]])
          (string_tree_num_tokens (build [["a0", "a1"], [], ["c0", "c1", "c2"]]))
          itl.path itl.remaining
        = some (List.replicate
            (string_tree_num_tokens (build [["a0", "a1"], [], ["c0", "c1", "c2"]])) 0,
          itl.remaining, true) ∧
      string_tree_iterator_next itl = some itP ∧
      advance_n (permutation_product (build [["a0", "a1"], [], ["c0", "c1", "c2"]])) it0
        = some itP ∧
      itP.remaining = 0 ∧
      itP.path = List.replicate
        (string_tree_num_tokens (build [["a0", "a1"], [], ["c0", "c1", "c2"]])) 0 ∧
      itP.path = it0.path ∧
      ∀ i, string_tree_iterator_get_string itP i = string_tree_iterator_get_string it0 i :=
  ⟨⟨by decide, by decide, by decide⟩,
   exhaustion_by_carry (build [["a0", "a1"], [], ["c0", "c1", "c2"]]) (by decide) (by decide)
     (by decide)⟩

end StringTree
